import Mathlib

set_option maxRecDepth 8000

/-!
# Verification of the calculator engine in `src/app.js`

Shallow embedding of the client-side calculator.  JavaScript strings are
modelled as lists of characters (`Str`); JavaScript numbers are modelled as
exact rationals (`ℚ`).  Every IEEE-754 double is a dyadic — hence decimal —
rational, so the decimal-rational fragment of the model is the faithful
image of the code's number values.  All recursive helpers are written with
structural fuel, and rational arithmetic is routed through reducible
wrappers (`qadd`, `qmul`, …) so that every definition evaluates by kernel
reduction; the wrappers are proved equal to the standard `ℚ` operations.
-/

/-! ## Reducible rational arithmetic -/

/-- Addition on `ℚ` by cross-multiplication (kernel-reducible). -/
def qadd (a b : ℚ) : ℚ := Rat.divInt (a.num * b.den + b.num * a.den) (a.den * b.den)

/-- Negation on `ℚ` (kernel-reducible). -/
def qneg (a : ℚ) : ℚ := Rat.neg a

/-- Subtraction on `ℚ` (kernel-reducible). -/
def qsub (a b : ℚ) : ℚ := qadd a (qneg b)

/-- Multiplication on `ℚ` (kernel-reducible). -/
def qmul (a b : ℚ) : ℚ := Rat.divInt (a.num * b.num) (a.den * b.den)

/-- Inverse on `ℚ` (kernel-reducible; `qinv 0 = 0`). -/
def qinv (a : ℚ) : ℚ := Rat.divInt a.den a.num

/-- Division on `ℚ` (kernel-reducible; `qdiv a 0 = 0`). -/
def qdiv (a b : ℚ) : ℚ := qmul a (qinv b)

/-- `10 ^ e` on `ℚ` for an integer exponent (kernel-reducible). -/
def qpow10 (e : ℤ) : ℚ :=
  if 0 ≤ e then ((10 ^ e.toNat : ℕ) : ℚ) else qinv ((10 ^ (-e).toNat : ℕ) : ℚ)

/-! ## Strings and digits -/

/-- JavaScript strings as lists of characters. -/
abbrev Str := List Char

/-- Lift a Lean string literal to the `Str` model. -/
def str (s : String) : Str := s.data

/-- `'0' ≤ c ≤ '9'`. -/
def isDigitChar (c : Char) : Bool := decide ('0' ≤ c) && decide (c ≤ '9')

/-- Numeric value of a digit character. -/
def digitVal (c : Char) : ℕ := c.toNat - '0'.toNat

/-- Digit character of a value `< 10`. -/
def digitChar (d : ℕ) : Char := Char.ofNat ('0'.toNat + d)

/-- Value of a big-endian digit string (`"123" ↦ 123`). -/
def digitsVal (l : Str) : ℕ := l.foldl (fun a c => 10 * a + digitVal c) 0

/-- Fuel-driven decimal rendering of a natural number (`natStrAux f n` is
correct whenever `n ≤ f`); renders `0` as the empty list. -/
def natStrAux : ℕ → ℕ → Str
  | 0, _ => []
  | f + 1, n => if n = 0 then [] else natStrAux f (n / 10) ++ [digitChar (n % 10)]

/-- Decimal digit string of a natural number (empty for `0`). -/
def natStr (n : ℕ) : Str := natStrAux n n

/-- Fuel-driven `⌊log₁₀ n⌋` (correct whenever `n ≤ f`). -/
def natLog10Aux : ℕ → ℕ → ℕ
  | 0, _ => 0
  | f + 1, n => if 10 ≤ n then natLog10Aux f (n / 10) + 1 else 0

/-- `⌊log₁₀ n⌋` for `n ≥ 1` (and `0` for `n = 0`). -/
def natLog10 (n : ℕ) : ℕ := natLog10Aux n n

/-- Smallest `k` with `b ≤ a * 10 ^ k`, found by fuel-driven search. -/
def negLogAux : ℕ → ℕ → ℕ → ℕ
  | 0, _, _ => 0
  | f + 1, a, b => if b ≤ a then 0 else negLogAux f (10 * a) b + 1

/-- `⌊log₁₀ q⌋` of a positive rational. -/
def ratFloorLog10 (q : ℚ) : ℤ :=
  if 1 ≤ q then (natLog10 (q.num.toNat / q.den) : ℤ)
  else -(negLogAux q.den q.num.toNat q.den : ℤ)

/-- `⌊q⌋` of a nonnegative rational, as a natural number. -/
def ratFloorPos (q : ℚ) : ℕ := q.num.toNat / q.den

/-- `|q|` (kept as an explicit `if` so that it reduces in the kernel). -/
def qabs (q : ℚ) : ℚ := if q < 0 then qneg q else q

/-! ## `formatNumber` (lines 14–30 of `app.js`) -/

/-- ECMAScript rounding of a positive rational to 12 significant digits:
returns `(n, e)` with `10^11 ≤ n < 10^12` and value `n * 10 ^ (e - 11)`;
ties round to the larger significand, as `Number.prototype.toPrecision`
prescribes. -/
def sigRound (x : ℚ) : ℕ × ℤ :=
  let e := ratFloorLog10 x
  let n := ratFloorPos (qadd (qmul x (qpow10 (11 - e))) (Rat.divInt 1 2))
  if n = 10 ^ 12 then (10 ^ 11, e + 1) else (n, e)

/-- Exponent rendering used by ECMAScript (`e+21`, `e-7`). -/
def expChars (e : ℤ) : Str :=
  if e < 0 then '-' :: natStr (-e).toNat else '+' :: natStr e.toNat

/-- Layout step of `Number.prototype.toPrecision(12)` for significand digits
`natStr n` (12 digits) and decimal exponent `e`. -/
def buildPrec (neg : Bool) (n : ℕ) (e : ℤ) : Str :=
  let ds := natStr n
  let body :=
    if e < -6 ∨ 12 ≤ e then
      ds.take 1 ++ '.' :: ds.drop 1 ++ 'e' :: expChars e
    else if e = 11 then ds
    else if 0 ≤ e then ds.take (e.toNat + 1) ++ '.' :: ds.drop (e.toNat + 1)
    else '0' :: '.' :: (List.replicate (-e - 1).toNat '0' ++ ds)
  if neg then '-' :: body else body

/-- Model of `Number(n).toPrecision(12)` (line 18 of `app.js`). -/
def toPrecision12 (q : ℚ) : Str :=
  if q = 0 then str "0.00000000000"
  else
    let p := sigRound (qabs q)
    buildPrec (decide (q < 0)) p.1 p.2

/-- Fuel-driven multiplicity of `p` in `n`. -/
def countPAux : ℕ → ℕ → ℕ → ℕ
  | 0, _, _ => 0
  | f + 1, p, n => if 2 ≤ p ∧ n % p = 0 ∧ n ≠ 0 then countPAux f p (n / p) + 1 else 0

/-- Multiplicity of `p` in `n` (for `p ≥ 2`, `n ≥ 1`). -/
def countP (p n : ℕ) : ℕ := countPAux n p n

/-- Strip trailing decimal zeros of `A`: returns `(s, z)` with `A = s * 10 ^ z`
and `¬ 10 ∣ s` (for `A ≠ 0`). -/
def strip10Aux : ℕ → ℕ → ℕ × ℕ
  | 0, A => (A, 0)
  | f + 1, A =>
    if A % 10 = 0 ∧ A ≠ 0 then
      let r := strip10Aux f (A / 10)
      (r.1, r.2 + 1)
    else (A, 0)

def strip10 (A : ℕ) : ℕ × ℕ := strip10Aux A A

/-- Layout of ECMAScript `Number::toString` for a value `s * 10 ^ (n - k)`
where `ds = natStr s` has `k` digits and `s` is not divisible by 10. -/
def jsLayout (ds : Str) (k : ℕ) (n : ℤ) : Str :=
  if (k : ℤ) ≤ n ∧ n ≤ 21 then ds ++ List.replicate (n - k).toNat '0'
  else if 0 < n ∧ n ≤ 21 then ds.take n.toNat ++ '.' :: ds.drop n.toNat
  else if -6 < n ∧ n ≤ 0 then '0' :: '.' :: (List.replicate (-n).toNat '0' ++ ds)
  else
    (if k = 1 then ds else ds.take 1 ++ '.' :: ds.drop 1) ++ 'e' :: expChars (n - 1)

/-- Model of `Number(n).toString()` (line 22 of `app.js`).  Faithful on
decimal rationals (which include every IEEE-754 double); on other rationals
the double would have been rounded, which exact arithmetic cannot express. -/
def toStringJS (q : ℚ) : Str :=
  if q = 0 then str "0"
  else
    let j := countP 2 q.den + countP 5 q.den
    let A := (qmul (qabs q) (qpow10 j)).num.toNat
    let sz := strip10 A
    let k := (natStr sz.1).length
    let n : ℤ := (k : ℤ) + sz.2 - j
    let body := jsLayout (natStr sz.1) k n
    if q < 0 then '-' :: body else body

/-- The decimal rationals: values whose denominator divides a power of ten,
i.e. exactly the values with a finite decimal expansion (every IEEE-754
double is one, so this fragment of `ℚ` is the faithful image of the
JavaScript number values).  Phrased through the same power-of-ten scale
that `toStringJS` computes. -/
def DecimalRat (q : ℚ) : Prop :=
  (qmul q (qpow10 ((countP 2 q.den + countP 5 q.den : ℕ) : ℤ))).den = 1

instance (q : ℚ) : Decidable (DecimalRat q) := Nat.decEq _ _

/-- Does the list start with the given character? -/
def headIs (c : Char) : Str → Bool
  | [] => false
  | d :: _ => d = c

/-- Case analysis of `stripzA` on what precedes the trailing-zero run. -/
def stripzACore (s body : Str) : Str :=
  match body with
  | [] => s
  | c :: t =>
    if '1' ≤ c ∧ c ≤ '9' then
      if headIs '.' ((c :: t).dropWhile isDigitChar) then (c :: t).reverse else s
    else s

/-- Model of `s.replace(/(\.\d*?[1-9])0+$/, "$1")` (line 26 of `app.js`):
drop the trailing zeros if, walking from the end past those zeros, we see a
nonzero digit and then digits up to a decimal point. -/
def stripzA (s : Str) : Str :=
  let r := s.reverse
  let rz := (r.takeWhile (fun c => c = '0')).length
  if rz = 0 then s else stripzACore s (r.drop rz)

/-- Case analysis of `stripzB` on what precedes the trailing-zero run. -/
def stripzBCore (s body : Str) : Str :=
  match body with
  | [] => s
  | c :: t => if c = '.' then t.reverse else s

/-- Model of `s.replace(/\.0+$/, "")` (line 27 of `app.js`). -/
def stripzB (s : Str) : Str :=
  let r := s.reverse
  let rz := (r.takeWhile (fun c => c = '0')).length
  if rz = 0 then s else stripzBCore s (r.drop rz)

/-- Strip trailing `'0'` characters. -/
def rstrip (l : Str) : Str := (l.reverse.dropWhile (fun c => c = '0')).reverse

/-- Trailing-zero trimming of `formatNumber` (lines 25–28 of `app.js`). -/
def trimTrailing (s : Str) : Str :=
  if '.' ∈ s then stripzB (stripzA s) else s

/-- `formatNumber` (lines 14–30 of `app.js`).  The `!isFinite(n)` guard is
unreachable in the exact-rational model, where every value is finite. -/
def formatNumber (q : ℚ) : Str :=
  let s := toPrecision12 q
  let s2 := if 'e' ∈ s then toStringJS q else s
  trimTrailing s2

/-! ## `parseFloat` and `computeLocal` (lines 71–104 of `app.js`) -/

/-- Sign handling of the exponent part of the `parseFloat` model. -/
def splitExpSign (t : Str) : ℤ × Str :=
  match t with
  | [] => (1, [])
  | c :: u => if c = '-' then (-1, u) else if c = '+' then (1, u) else (1, c :: u)

/-- Exponent-part helper of the `parseFloat` model. -/
def parseExpTail (t : Str) : ℤ :=
  let sd := splitExpSign t
  let ed := sd.2.takeWhile isDigitChar
  if ed = [] then 0 else sd.1 * digitsVal ed

/-- Exponent suffix of the `parseFloat` model: a valid exponent contributes,
anything else (including a bare `e`) is trailing junk worth `0`. -/
def parseExp (cs : Str) : ℤ :=
  match cs with
  | [] => 0
  | c :: t => if c = 'e' ∨ c = 'E' then parseExpTail t else 0

/-- Sign handling of the `parseFloat` model. -/
def splitSign (s : Str) : ℚ × Str :=
  match s with
  | [] => (1, [])
  | c :: t => if c = '-' then (-1, t) else if c = '+' then (1, t) else (1, c :: t)

/-- Fraction handling of the `parseFloat` model: digits after a leading dot,
and the remainder. -/
def splitFrac (rest : Str) : Str × Str :=
  match rest with
  | [] => ([], [])
  | c :: t =>
    if c = '.' then (t.takeWhile isDigitChar, t.dropWhile isDigitChar) else ([], c :: t)

/-- Model of JavaScript `parseFloat`: longest valid numeric-literal
front part (sign, integer digits, optional fraction, optional exponent),
`none` for NaN.  Trailing junk is ignored, exactly as `parseFloat` does. -/
def parseQ (s : Str) : Option ℚ :=
  let sc := splitSign s
  let ip := sc.2.takeWhile isDigitChar
  let rest := sc.2.dropWhile isDigitChar
  let fr := splitFrac rest
  if ip = [] ∧ fr.1 = [] then none
  else some (qmul (qmul sc.1
      (qadd ((digitsVal ip : ℕ) : ℚ) (qdiv ((digitsVal fr.1 : ℕ) : ℚ) (qpow10 fr.1.length))))
    (qpow10 (parseExp fr.2)))

/-- Result type of `computeLocal` (`{ok: true, result}` / `{ok: false, error}`). -/
inductive CLResult where
  | ok (result : Str)
  | err (error : Str)
deriving DecidableEq

/-- JavaScript truncation toward zero, used by the `%` operator. -/
def jsTrunc (q : ℚ) : ℤ :=
  if q < 0 then -(ratFloorPos (qneg q) : ℤ) else (ratFloorPos q : ℤ)

/-- `computeLocal` (lines 71–104 of `app.js`).  `a % b` in JavaScript is
`a - b * trunc(a / b)` (sign follows the dividend). -/
def computeLocal (aStr bStr op : Str) : CLResult :=
  match parseQ aStr, parseQ bStr with
  | some a, some b =>
    if op = str "+" then .ok (formatNumber (qadd a b))
    else if op = str "-" then .ok (formatNumber (qsub a b))
    else if op = str "*" then .ok (formatNumber (qmul a b))
    else if op = str "/" then
      if b = 0 then .err (str "Division by zero") else .ok (formatNumber (qdiv a b))
    else if op = str "%" then
      if b = 0 then .err (str "Division by zero")
      else .ok (formatNumber (qsub a (qmul b ((jsTrunc (qdiv a b) : ℤ) : ℚ))))
    else .err (str "Unsupported operator")
  | _, _ => .err (str "Invalid number")

/-! ## Engine state and event handlers -/

/-- Engine state: the module-level variables `input`, `stored`, `operator`
plus the two DOM sinks (`display`, `status`). -/
structure EngineState where
  input : Str
  stored : Option Str
  operator : Option Str
  display : Str
  status : Str
deriving DecidableEq

/-- `clearAll` (lines 36–42 of `app.js`). -/
def clearAllS : EngineState :=
  { input := [], stored := none, operator := none, display := str "0", status := [] }

/-- The string transformation of `setInputChar` (lines 44–50 of `app.js`). -/
def setInputChar (input : Str) (ch : Char) : Str :=
  if ch = '.' ∧ '.' ∈ input then input
  else
    let i1 := if ch = '.' ∧ input = [] then str "0" else input
    if i1 = str "0" ∧ ch ≠ '.' then [ch] else i1 ++ [ch]

/-- `setInputChar` as a state transition (early return on a repeated dot
skips the display update). -/
def setInputCharS (st : EngineState) (ch : Char) : EngineState :=
  if ch = '.' ∧ '.' ∈ st.input then st
  else
    let i := setInputChar st.input ch
    { st with input := i, display := i }

/-- `s.startsWith("-") ? s.slice(1) : "-" + s` (lines 56–57 and 65–66 of
`app.js`). -/
def negateStr : Str → Str
  | [] => ['-']
  | c :: t => if c = '-' then t else '-' :: c :: t

/-- `toggleSign` (lines 52–68 of `app.js`). -/
def toggleSignS (st : EngineState) : EngineState :=
  if st.input = [] then
    match st.stored with
    | some s =>
      let s2 := negateStr s
      { st with stored := some s2, display := s2 }
    | none =>
      { st with input := str "-0", display := str "-0" }
  else
    let i := negateStr st.input
    { st with input := i, display := i }

/-- `operator || op` (line 119 of `app.js`) on the raw operator slot:
JavaScript truthiness, so a `null` or empty stored operator falls back to
the new one. -/
def effOpC (o : Option Str) (op : Str) : Str :=
  match o with
  | none => op
  | some o0 => if o0 = [] then op else o0

/-- `operator || op` (line 119 of `app.js`). -/
def effOp (st : EngineState) (op : Str) : Str := effOpC st.operator op

/-- JavaScript truthiness of a nullable string. -/
def optTruthy : Option Str → Bool
  | none => false
  | some s => decide (s ≠ [])

/-- `pressOperator` (lines 106–145 of `app.js`). -/
def pressOperatorS (st : EngineState) (op : Str) : EngineState :=
  if st.input ≠ [] ∧ st.stored = none then
    { input := [], stored := some st.input, operator := some op,
      display := st.input, status := st.input ++ ' ' :: op }
  else if st.stored ≠ none ∧ st.input ≠ [] then
    match computeLocal (st.stored.getD []) st.input (effOp st op) with
    | .err e =>
      { input := [], stored := none, operator := none,
        display := str "Error", status := e }
    | .ok r =>
      { input := [], stored := some r, operator := some op,
        display := r, status := r ++ ' ' :: op }
  else if st.stored ≠ none ∧ st.input = [] then
    { st with operator := some op, status := st.stored.getD [] ++ ' ' :: op }
  else st

/-- `pressPercent` (lines 147–164 of `app.js`). -/
def pressPercentS (st : EngineState) : EngineState :=
  if st.input ≠ [] then
    match parseQ st.input with
    | none => { st with status := str "Invalid number" }
    | some v =>
      let i := formatNumber (qdiv v 100)
      { st with input := i, display := i }
  else if st.stored ≠ none ∧ st.input = [] then
    match parseQ (st.stored.getD []) with
    | none => { st with status := str "Invalid number" }
    | some v =>
      let s2 := formatNumber (qdiv v 100)
      { st with stored := some s2, display := s2, status := [] }
  else st

/-- `stored === null ? "0" : stored` (line 173 of `app.js`). -/
def eqAC (s : Option Str) : Str :=
  match s with
  | none => str "0"
  | some s0 => s0

/-- Left operand of `pressEquals` (line 173 of `app.js`). -/
def eqA (st : EngineState) : Str := eqAC st.stored

/-- Right operand of `pressEquals` (line 174 of `app.js`). -/
def eqB (st : EngineState) : Str :=
  if st.input = [] then eqA st else st.input

/-- `pressEquals` (lines 166–190 of `app.js`). -/
def pressEqualsS (st : EngineState) : EngineState :=
  if optTruthy st.operator then
    match computeLocal (eqA st) (eqB st) (st.operator.getD []) with
    | .err e =>
      { input := [], stored := none, operator := none,
        display := str "Error", status := e }
    | .ok r =>
      { input := [], stored := some r, operator := none, display := r,
        status := eqA st ++ ' ' :: (st.operator.getD []) ++ ' ' :: eqB st ++ str " =" }
  else
    if st.input ≠ [] then { st with display := st.input }
    else if optTruthy st.stored then { st with display := st.stored.getD [] }
    else st

/-- The `Backspace` branch of the keydown handler (lines 244–256 of `app.js`). -/
def backspaceS (st : EngineState) : EngineState :=
  if st.input ≠ [] then
    let i := st.input.dropLast
    { st with input := i, display := if i = [] then str "0" else i }
  else
    { st with operator := none, status := [] }

/-- The public event set of the engine (§4.1 of the spec; the adapter maps
buttons and keys to exactly these). -/
inductive Event where
  | digit (ch : Char)
  | toggleSign
  | percent
  | op (o : Str)
  | equals
  | clear
  | backspace

/-- Event dispatch (the click/keydown adapters of `app.js`). -/
def applyEvent (st : EngineState) (e : Event) : EngineState :=
  match e with
  | .digit ch => setInputCharS st ch
  | .toggleSign => toggleSignS st
  | .percent => pressPercentS st
  | .op o => pressOperatorS st o
  | .equals => pressEqualsS st
  | .clear => clearAllS
  | .backspace => backspaceS st

/-- Run a sequence of events from a given state. -/
def runFrom (st : EngineState) (evs : List Event) : EngineState :=
  evs.foldl applyEvent st

/-- Run a sequence of events from the cleared state. -/
def runEvents (evs : List Event) : EngineState := runFrom clearAllS evs

/-! ## Specification-side abbreviations -/

/-- The invariant of C5: a pending operator implies a stored operand. -/
def opImpStored (st : EngineState) : Prop := st.operator ≠ none → st.stored ≠ none

instance (st : EngineState) : Decidable (opImpStored st) := by
  rw [opImpStored]; infer_instance

/-- Character-set and dot-count check on an input body (after an optional
leading minus): only digits `0-9` and at most one `.`. -/
def validBody (l : Str) : Bool :=
  l.all (fun c => isDigitChar c || c = '.') && decide (l.count '.' ≤ 1)

/-- The spec's `currentInput` well-formedness invariant (§3): at most one
decimal point, only the digits 0–9, optionally prefixed by a single leading
`-`. -/
def validInputL (s : Str) : Bool :=
  match s with
  | [] => true
  | c :: t => if c = '-' then validBody t else validBody (c :: t)

/-- Public events other than `Percent`, with digit payloads restricted to
the spec's `'0'-'9'` and `'.'`. -/
def noPercentEvent : Event → Prop
  | .digit c => isDigitChar c = true ∨ c = '.'
  | .percent => False
  | _ => True

instance : DecidablePred noPercentEvent := fun e => by
  cases e <;> simp only [noPercentEvent] <;> infer_instance

/-- The behavioural core (input, stored, operator) of a state: the display
and status sinks are written by the handlers but never read back. -/
def stateCore (st : EngineState) : Str × Option Str × Option Str :=
  (st.input, st.stored, st.operator)

/-- Core-level transition mirroring `applyEvent`; used to show that a
state's future behaviour depends only on its core. -/
def coreApply (e : Event) (c : Str × Option Str × Option Str) :
    Str × Option Str × Option Str :=
  let i := c.1
  let s := c.2.1
  let o := c.2.2
  match e with
  | .digit ch => if ch = '.' ∧ '.' ∈ i then (i, s, o) else (setInputChar i ch, s, o)
  | .toggleSign =>
    if i = [] then
      match s with
      | some s0 => (i, some (negateStr s0), o)
      | none => (str "-0", s, o)
    else (negateStr i, s, o)
  | .percent =>
    if i ≠ [] then
      match parseQ i with
      | none => (i, s, o)
      | some v => (formatNumber (qdiv v 100), s, o)
    else if s ≠ none ∧ i = [] then
      match parseQ (s.getD []) with
      | none => (i, s, o)
      | some v => (i, some (formatNumber (qdiv v 100)), o)
    else (i, s, o)
  | .op op0 =>
    if i ≠ [] ∧ s = none then ([], some i, some op0)
    else if s ≠ none ∧ i ≠ [] then
      match computeLocal (s.getD []) i (effOpC o op0) with
      | .err _ => ([], none, none)
      | .ok r => ([], some r, some op0)
    else if s ≠ none ∧ i = [] then (i, s, some op0)
    else (i, s, o)
  | .equals =>
    if optTruthy o then
      match computeLocal (eqAC s) (if i = [] then eqAC s else i) (o.getD []) with
      | .err _ => ([], none, none)
      | .ok r => ([], some r, none)
    else (i, s, o)
  | .clear => ([], none, none)
  | .backspace =>
    if i ≠ [] then (i.dropLast, s, o)
    else (i, s, none)

/-! ## Helper lemmas -/

theorem qneg_eq (a : ℚ) : qneg a = -a := rfl

theorem qadd_eq (a b : ℚ) : qadd a b = a + b := by
  have ha : ((a.den : ℚ)) ≠ 0 := by exact_mod_cast a.den_nz
  have hb : ((b.den : ℚ)) ≠ 0 := by exact_mod_cast b.den_nz
  rw [qadd, Rat.divInt_eq_div]
  push_cast
  conv_rhs => rw [← Rat.num_div_den a, ← Rat.num_div_den b, div_add_div _ _ ha hb]
  ring_nf

theorem qsub_eq (a b : ℚ) : qsub a b = a - b := by
  rw [qsub, qadd_eq, qneg_eq, sub_eq_add_neg]

theorem qmul_eq (a b : ℚ) : qmul a b = a * b := by
  have ha : ((a.den : ℚ)) ≠ 0 := by exact_mod_cast a.den_nz
  have hb : ((b.den : ℚ)) ≠ 0 := by exact_mod_cast b.den_nz
  rw [qmul, Rat.divInt_eq_div]
  push_cast
  conv_rhs => rw [← Rat.num_div_den a, ← Rat.num_div_den b, div_mul_div_comm]

theorem qinv_eq (a : ℚ) : qinv a = a⁻¹ := (Rat.inv_def' a).symm

theorem qdiv_eq (a b : ℚ) : qdiv a b = a / b := by
  rw [qdiv, qmul_eq, qinv_eq, div_eq_mul_inv]

theorem qpow10_eq (e : ℤ) : qpow10 e = (10 : ℚ) ^ e := by
  rw [qpow10]
  split
  · rename_i h
    push_cast
    rw [← zpow_natCast, Int.toNat_of_nonneg h]
  · rename_i h
    rw [qinv_eq]
    push_cast
    rw [← zpow_natCast, Int.toNat_of_nonneg (by omega), ← zpow_neg, neg_neg]

theorem computeLocal_some {a b : Str} {x y : ℚ} (op : Str)
    (ha : parseQ a = some x) (hb : parseQ b = some y) :
    computeLocal a b op =
      (if op = str "+" then .ok (formatNumber (qadd x y))
      else if op = str "-" then .ok (formatNumber (qsub x y))
      else if op = str "*" then .ok (formatNumber (qmul x y))
      else if op = str "/" then
        if y = 0 then .err (str "Division by zero") else .ok (formatNumber (qdiv x y))
      else if op = str "%" then
        if y = 0 then .err (str "Division by zero")
        else .ok (formatNumber (qsub x (qmul y ((jsTrunc (qdiv x y) : ℤ) : ℚ))))
      else .err (str "Unsupported operator")) := by
  unfold computeLocal
  rw [ha, hb]

/-! ## C2 -/

/-- **C2**: for every pair of operand strings `a` and `b` such that `b` parses
to exactly zero, `computeLocal a b op` with `op = "/"` or `op = "%"` never
returns a numeric result, and (whenever `a` parses at all, i.e. denotes an
operand) returns exactly the `DivisionByZero` error.  In the exact-rational
model no infinite or NaN value even exists, so none can be displayed. -/
theorem c2_div_mod_by_zero (a b op : Str) (hop : op = str "/" ∨ op = str "%")
    (hb : parseQ b = some 0) :
    (∀ r, computeLocal a b op ≠ CLResult.ok r) ∧
    ((∃ x, parseQ a = some x) →
      computeLocal a b op = CLResult.err (str "Division by zero")) := by
  have hdiv : ∀ x : ℚ, parseQ a = some x →
      computeLocal a b op = CLResult.err (str "Division by zero") := by
    intro x hx
    rcases hop with rfl | rfl
    · rw [computeLocal_some _ hx hb]
      rw [if_neg (by decide), if_neg (by decide), if_neg (by decide), if_pos rfl,
        if_pos rfl]
    · rw [computeLocal_some _ hx hb]
      rw [if_neg (by decide), if_neg (by decide), if_neg (by decide), if_neg (by decide),
        if_pos rfl, if_pos rfl]
  refine ⟨?_, fun hex => hex.elim hdiv⟩
  intro r
  cases hpa : parseQ a with
  | none =>
    unfold computeLocal
    rw [hpa, hb]
    simp
  | some x =>
    rw [hdiv x hpa]
    simp

/-- Witness for C2 at `a = "7"`, `b = "0"`, `op = "/"`. -/
theorem c2_witness :
    computeLocal (str "7") (str "0") (str "/") = CLResult.err (str "Division by zero") :=
  (c2_div_mod_by_zero (str "7") (str "0") (str "/") (Or.inl rfl) (by decide)).2
    ⟨7, by decide⟩

/-! ## C10 -/

/-- **C10**: `ToggleSign` in the fully cleared state sets `currentInput` to the
literal string `"-0"` and displays `"-0"`; a second `ToggleSign` then yields
`currentInput` `"0"`. -/
theorem c10_toggle_sign_cleared :
    (runEvents [Event.toggleSign]).input = str "-0" ∧
    (runEvents [Event.toggleSign]).display = str "-0" ∧
    (runEvents [Event.toggleSign, Event.toggleSign]).input = str "0" := by decide

/-! ## C7 -/

/-- **C7**: in every state with a stored operand and empty input, an operator
press only replaces the pending operator (and refreshes the status line):
input, stored operand and display are untouched, and no evaluation happens.
Scenario 3 follows: `9 + (-) 2 =` shows `"7"`. -/
theorem c7_operator_replace (st : EngineState) (o : Str)
    (hs : st.stored ≠ none) (hi : st.input = []) :
    pressOperatorS st o
      = { st with operator := some o, status := st.stored.getD [] ++ ' ' :: o } ∧
    (runEvents [Event.digit '9', Event.op (str "+"), Event.op (str "-"),
      Event.digit '2', Event.equals]).display = str "7" := by
  constructor
  · rw [pressOperatorS, if_neg (by simp [hi]), if_neg (by simp [hi]),
      if_pos ⟨hs, hi⟩]
  · decide

/-- Witness for C7 at the state reached after `9 +`, pressing `-`. -/
theorem c7_witness :
    pressOperatorS
      { input := [], stored := some (str "9"), operator := some (str "+"),
        display := str "9", status := str "9 +" } (str "-")
      = { input := [], stored := some (str "9"), operator := some (str "-"),
          display := str "9", status := str "9 -" } := by
  have h := (c7_operator_replace
    { input := [], stored := some (str "9"), operator := some (str "+"),
      display := str "9", status := str "9 +" } (str "-") (by decide) rfl).1
  rw [h]
  decide

/-! ## C4 -/

/-- **C4**: equals without a pending operator is a pure display refresh
(input if non-empty, else the stored operand if present, else unchanged);
with a pending operator the operands are `eqA` (stored, defaulting to `"0"`)
and `eqB` (input if non-empty, else the same value as `eqA`), and on success
the result becomes the stored operand, input and operator clear, and the
status shows `"<a> <op> <b> ="`.  Scenario 1 follows: `5 + 3 =` shows `"8"`
with status `"5 + 3 ="`. -/
theorem c4_equals (st : EngineState) :
    (optTruthy st.operator = false →
      pressEqualsS st =
        { st with display :=
            if st.input ≠ [] then st.input
            else if optTruthy st.stored then st.stored.getD [] else st.display }) ∧
    (eqA st = (match st.stored with | none => str "0" | some s => s)) ∧
    (eqB st = if st.input = [] then eqA st else st.input) ∧
    (∀ o r, st.operator = some o → o ≠ [] →
      computeLocal (eqA st) (eqB st) o = CLResult.ok r →
      pressEqualsS st =
        { input := [], stored := some r, operator := none, display := r,
          status := eqA st ++ ' ' :: o ++ ' ' :: eqB st ++ str " =" }) ∧
    ((runEvents [Event.digit '5', Event.op (str "+"), Event.digit '3',
        Event.equals]).display = str "8" ∧
      (runEvents [Event.digit '5', Event.op (str "+"), Event.digit '3',
        Event.equals]).status = str "5 + 3 =") := by
  refine ⟨?_, rfl, rfl, ?_, by decide, by decide⟩
  · intro h
    rw [pressEqualsS, if_neg (by simp [h])]
    split_ifs <;> rfl
  · intro o r ho hne hok
    rw [pressEqualsS, if_pos (by simp [optTruthy, ho, hne])]
    simp only [ho, Option.getD_some]
    rw [hok]

/-- Witness for C4 at the state reached after `5 + 3`, pressing equals. -/
theorem c4_witness :
    pressEqualsS
      { input := str "3", stored := some (str "5"), operator := some (str "+"),
        display := str "3", status := str "5 +" }
      = { input := [], stored := some (str "8"), operator := none,
          display := str "8", status := str "5 + 3 =" } := by
  have h := (c4_equals
    { input := str "3", stored := some (str "5"), operator := some (str "+"),
      display := str "3", status := str "5 +" }).2.2.2.1
    (str "+") (str "8") rfl (by decide) (by decide)
  rw [h]
  decide

/-! ## C8 -/

/-- **C8**: a `Percent` event divides the active operand by 100 — the input
slot if non-empty, else the stored slot if present — reformatting it in place
with `formatNumber`, and never modifies the pending operator.  Scenario 5
follows: `2 0 %` with empty stored operand shows `"0.2"`. -/
theorem c8_percent (st : EngineState) :
    (∀ v : ℚ, st.input ≠ [] → parseQ st.input = some v →
      pressPercentS st =
        { st with input := formatNumber (qdiv v 100),
                  display := formatNumber (qdiv v 100) }) ∧
    (∀ (s : Str) (v : ℚ), st.input = [] → st.stored = some s → parseQ s = some v →
      pressPercentS st =
        { st with stored := some (formatNumber (qdiv v 100)),
                  display := formatNumber (qdiv v 100), status := [] }) ∧
    (pressPercentS st).operator = st.operator ∧
    (runEvents [Event.digit '2', Event.digit '0', Event.percent]).display
      = str "0.2" := by
  refine ⟨?_, ?_, ?_, by decide⟩
  · intro v hi hv
    rw [pressPercentS, if_pos hi, hv]
  · intro s v hi hs hv
    rw [pressPercentS, if_neg (by simp [hi]), if_pos ⟨by simp [hs], hi⟩]
    simp only [hs, Option.getD_some]
    rw [hv]
  · rw [pressPercentS]
    split_ifs
    · rcases parseQ st.input with _ | v <;> rfl
    · rcases parseQ (st.stored.getD []) with _ | v <;> rfl
    · rfl

/-- Witness for C8 at input `"20"` with empty stored operand. -/
theorem c8_witness :
    pressPercentS
      { input := str "20", stored := none, operator := none,
        display := str "20", status := [] }
      = { input := str "0.2", stored := none, operator := none,
          display := str "0.2", status := [] } := by
  have h := (c8_percent
    { input := str "20", stored := none, operator := none,
      display := str "20", status := [] }).1 20 (by decide) (by decide)
  rw [h]
  decide

/-! ## C6 -/

theorem runFrom_cons (st : EngineState) (e : Event) (evs : List Event) :
    runFrom st (e :: evs) = runFrom (applyEvent st e) evs := rfl

theorem applyEvent_digit_input (st : EngineState) (c : Char) :
    (applyEvent st (Event.digit c)).input = setInputChar st.input c := by
  rw [applyEvent, setInputCharS]
  split_ifs with h
  · rw [setInputChar, if_pos h]
  · rfl

theorem runFrom_digits_input (cs : List Char) :
    ∀ st : EngineState,
      (runFrom st (cs.map Event.digit)).input = cs.foldl setInputChar st.input := by
  induction cs with
  | nil => intro st; rfl
  | cons c t ih =>
    intro st
    rw [List.map_cons, runFrom_cons, List.foldl_cons, ih, applyEvent_digit_input]

theorem runFrom_digits_display (cs : List Char) :
    ∀ st : EngineState, st.display = st.input →
      (runFrom st (cs.map Event.digit)).display
        = (runFrom st (cs.map Event.digit)).input := by
  induction cs with
  | nil => intro st h; exact h
  | cons c t ih =>
    intro st h
    rw [List.map_cons, runFrom_cons]
    apply ih
    rw [applyEvent, setInputCharS]
    split_ifs with hg
    · exact h
    · rfl

/-- **C6**: the digit-entry rules.  A `.` is ignored (input unchanged, so
`Digit('.')` is idempotent) when the input already holds a decimal point; a
`.` on empty input seeds the input with `"0"` and then appends, giving
`"0."`; a lone leading `"0"` is replaced, not prefixed, by the next
non-`.` character; every other character appends.  Consequently a digit
sequence typed into the cleared state displays exactly as the fold of
`setInputChar` (the typed sequence with leading-zero collapsing applied). -/
theorem c6_digit_entry :
    (∀ s : Str, '.' ∈ s → setInputChar s '.' = s) ∧
    setInputChar [] '.' = str "0." ∧
    (∀ c : Char, c ≠ '.' → setInputChar (str "0") c = [c]) ∧
    (∀ (s : Str) (c : Char), ¬(c = '.' ∧ '.' ∈ s) → ¬(c = '.' ∧ s = []) →
      ¬(s = str "0" ∧ c ≠ '.') → setInputChar s c = s ++ [c]) ∧
    (∀ cs : List Char, cs ≠ [] →
      (runEvents (cs.map Event.digit)).display = cs.foldl setInputChar [] ∧
      (runEvents (cs.map Event.digit)).input = cs.foldl setInputChar []) := by
  refine ⟨?_, by decide, ?_, ?_, ?_⟩
  · intro s h
    rw [setInputChar, if_pos ⟨rfl, h⟩]
  · intro c h
    simp only [setInputChar]
    split_ifs <;> simp_all
  · intro s c h1 h2 h3
    simp only [setInputChar]
    split_ifs <;> simp_all
  · intro cs hne
    have hi : (runEvents (cs.map Event.digit)).input = cs.foldl setInputChar [] :=
      runFrom_digits_input cs clearAllS
    refine ⟨?_, hi⟩
    rw [← hi]
    cases cs with
    | nil => exact absurd rfl hne
    | cons c t =>
      rw [runEvents, List.map_cons, runFrom_cons]
      apply runFrom_digits_display
      rw [applyEvent, setInputCharS, if_neg (by simp [clearAllS])]
  
/-- Witness for C6: each rule at a concrete input, and `0 0 7` collapsing
to display `"7"`. -/
theorem c6_witness :
    setInputChar (str "5.5") '.' = str "5.5" ∧
    setInputChar (str "0") '7' = str "7" ∧
    setInputChar (str "12") '3' = str "123" ∧
    (runEvents [Event.digit '0', Event.digit '0', Event.digit '7']).display
      = str "7" := by
  refine ⟨c6_digit_entry.1 (str "5.5") (by decide),
    (c6_digit_entry.2.2.1 '7' (by decide)).trans (by decide),
    (c6_digit_entry.2.2.2.1 (str "12") '3' (by decide) (by decide) (by decide)).trans
      (by decide), ?_⟩
  have h := (c6_digit_entry.2.2.2.2 ['0', '0', '7'] (by decide)).1
  simp only [List.map_cons, List.map_nil] at h
  rw [h]
  decide

/-! ## C5 -/

theorem opImpStored_step (e : Event) (st : EngineState) (h : opImpStored st) :
    opImpStored (applyEvent st e) := by
  cases e with
  | digit c =>
    rw [applyEvent, setInputCharS]
    split_ifs <;> exact h
  | toggleSign =>
    rw [applyEvent, toggleSignS]
    split_ifs with h1
    · cases hs : st.stored with
      | some s => intro _; simp
      | none => intro ho; exact absurd hs (h ho)
    · exact h
  | percent =>
    rw [applyEvent, pressPercentS]
    split_ifs with h1 h2
    · rcases parseQ st.input with _ | v
      · exact h
      · exact h
    · rcases parseQ (st.stored.getD []) with _ | v
      · exact h
      · intro _; simp
    · exact h
  | op o =>
    rw [applyEvent, pressOperatorS]
    split_ifs with h1 h2 h3
    · intro _; simp
    · rcases computeLocal (st.stored.getD []) st.input (effOp st o) with r | e2
      · intro _; simp
      · intro ho; exact absurd rfl ho
    · intro _; exact h3.1
    · exact h
  | equals =>
    rw [applyEvent, pressEqualsS]
    split_ifs with h1 h2 h3
    · rcases computeLocal (eqA st) (eqB st) (st.operator.getD []) with r | e2
      · intro _; simp
      · intro ho; exact absurd rfl ho
    · exact h
    · exact h
    · exact h
  | clear =>
    intro ho; exact absurd rfl ho
  | backspace =>
    rw [applyEvent, backspaceS]
    split_ifs with h1
    · exact h
    · intro ho; exact absurd rfl ho

theorem opImpStored_run (evs : List Event) :
    ∀ st, opImpStored st → opImpStored (runFrom st evs) := by
  induction evs with
  | nil => intro st h; exact h
  | cons e t ih => intro st h; exact ih _ (opImpStored_step e st h)

/-- **C5**: every event handler preserves the invariant "a pending operator
is present only if a stored operand is present", and therefore in every
state reachable from the cleared state by any event sequence (Backspace and
the error-reset paths included) a present `pendingOperator` implies a
present `storedOperand`. -/
theorem c5_operator_implies_stored :
    (∀ (e : Event) (st : EngineState), opImpStored st → opImpStored (applyEvent st e)) ∧
    ∀ evs : List Event, (runEvents evs).operator ≠ none → (runEvents evs).stored ≠ none :=
  ⟨opImpStored_step,
    fun evs => opImpStored_run evs clearAllS (fun ho => absurd rfl ho)⟩

/-- Witness for C5: Backspace on a state with a pending operator, and the
state reached by `1 +`. -/
theorem c5_witness :
    opImpStored (applyEvent
      { input := [], stored := some (str "9"), operator := some (str "+"),
        display := str "9", status := str "9 +" } Event.backspace) ∧
    (runEvents [Event.digit '1', Event.op (str "+")]).stored ≠ none :=
  ⟨c5_operator_implies_stored.1 Event.backspace _ (by decide),
    c5_operator_implies_stored.2 [Event.digit '1', Event.op (str "+")] (by decide)⟩

/-! ## C3 -/

theorem digit_ne_dot {c : Char} (h : isDigitChar c = true) : c ≠ '.' :=
  fun hh => by subst hh; exact absurd h (by decide)

theorem digit_ne_minus {c : Char} (h : isDigitChar c = true) : c ≠ '-' :=
  fun hh => by subst hh; exact absurd h (by decide)

theorem validBody_sublist {l1 l2 : Str} (hs : l1.Sublist l2)
    (h : validBody l2 = true) : validBody l1 = true := by
  rw [validBody, Bool.and_eq_true] at h ⊢
  obtain ⟨h1, h2⟩ := h
  refine ⟨?_, ?_⟩
  · rw [List.all_eq_true] at h1 ⊢
    exact fun c hc => h1 c (hs.subset hc)
  · rw [decide_eq_true_eq] at h2 ⊢
    exact le_trans (hs.count_le '.') h2

theorem validInputL_of_validBody {l : Str} (h : validBody l = true) :
    validInputL l = true := by
  cases l with
  | nil => rfl
  | cons c t =>
    have hc : (isDigitChar c || c = '.') = true := by
      rw [validBody, Bool.and_eq_true, List.all_eq_true] at h
      exact h.1 c (List.mem_cons_self c t)
    have : c ≠ '-' := by
      rcases Bool.or_eq_true_iff.1 hc with hd | he
      · exact digit_ne_minus hd
      · rw [decide_eq_true_eq] at he
        subst he
        decide
    rw [validInputL, if_neg this]
    exact h

theorem validBody_append {l : Str} {c : Char}
    (hc : isDigitChar c = true ∨ (c = '.' ∧ '.' ∉ l))
    (h : validBody l = true) : validBody (l ++ [c]) = true := by
  rw [validBody, Bool.and_eq_true] at h ⊢
  obtain ⟨h1, h2⟩ := h
  rw [decide_eq_true_eq] at h2
  constructor
  · rw [List.all_append, h1, Bool.true_and, List.all_cons, List.all_nil, Bool.and_true]
    rcases hc with hd | ⟨rfl, _⟩
    · rw [hd, Bool.true_or]
    · simp
  · rw [decide_eq_true_eq, List.count_append]
    rcases hc with hd | ⟨rfl, hnm⟩
    · have : List.count '.' [c] = 0 := by
        rw [List.count_singleton']
        simp [digit_ne_dot hd]
      omega
    · have hz : List.count '.' l = 0 := List.count_eq_zero.2 hnm
      have : List.count '.' ['.'] = 1 := by decide
      omega

theorem validInputL_singleton_digit {c : Char} (h : isDigitChar c = true) :
    validInputL [c] = true := by
  rw [validInputL, if_neg (digit_ne_minus h), validBody]
  rw [Bool.and_eq_true]
  constructor
  · rw [List.all_cons, List.all_nil, h, Bool.true_or, Bool.true_and]
  · rw [decide_eq_true_eq, List.count_singleton']
    split <;> omega

theorem validInputL_append {s : Str} {c : Char}
    (hc : isDigitChar c = true ∨ c = '.') (hdot : c = '.' → '.' ∉ s)
    (h : validInputL s = true) : validInputL (s ++ [c]) = true := by
  cases s with
  | nil =>
    rcases hc with hd | rfl
    · exact validInputL_singleton_digit hd
    · decide
  | cons d t =>
    by_cases hd : d = '-'
    · subst hd
      rw [validInputL, if_pos rfl] at h
      rw [List.cons_append, validInputL, if_pos rfl]
      refine validBody_append ?_ h
      rcases hc with hdig | rfl
      · exact Or.inl hdig
      · exact Or.inr ⟨rfl, fun hm => hdot rfl (List.mem_cons_of_mem _ hm)⟩
    · rw [validInputL, if_neg hd] at h
      rw [List.cons_append, validInputL, if_neg hd]
      rw [← List.cons_append]
      refine validBody_append ?_ h
      rcases hc with hdig | rfl
      · exact Or.inl hdig
      · exact Or.inr ⟨rfl, hdot rfl⟩

theorem validInputL_setInputChar {s : Str} {c : Char}
    (hc : isDigitChar c = true ∨ c = '.') (h : validInputL s = true) :
    validInputL (setInputChar s c) = true := by
  simp only [setInputChar]
  by_cases g1 : c = '.' ∧ '.' ∈ s
  · simp only [if_pos g1]
    exact h
  · simp only [if_neg g1]
    by_cases g2 : c = '.' ∧ s = []
    · simp only [if_pos g2]
      obtain ⟨rfl, rfl⟩ := g2
      decide
    · simp only [if_neg g2]
      by_cases g3 : s = str "0" ∧ c ≠ '.'
      · simp only [if_pos g3]
        rcases hc with hd | rfl
        · exact validInputL_singleton_digit hd
        · exact absurd rfl g3.2
      · simp only [if_neg g3]
        exact validInputL_append hc (fun hd hm => g1 ⟨hd, hm⟩) h

theorem validInputL_negateStr {s : Str} (h : validInputL s = true) :
    validInputL (negateStr s) = true := by
  rcases s with _ | ⟨d, t⟩
  · decide
  · rw [negateStr]
    by_cases hd : d = '-'
    · rw [if_pos hd]
      subst hd
      rw [validInputL, if_pos rfl] at h
      exact validInputL_of_validBody h
    · rw [if_neg hd, validInputL, if_pos rfl]
      rw [validInputL, if_neg hd] at h
      exact h

theorem validInputL_dropLast {s : Str} (h : validInputL s = true) :
    validInputL s.dropLast = true := by
  rcases s with _ | ⟨d, t⟩
  · decide
  · by_cases hd : d = '-'
    · subst hd
      rw [validInputL, if_pos rfl] at h
      cases t with
      | nil => rfl
      | cons x t2 =>
        rw [List.dropLast_cons₂, validInputL, if_pos rfl]
        exact validBody_sublist (List.dropLast_sublist (x :: t2)) h
    · rw [validInputL, if_neg hd] at h
      cases t with
      | nil => rfl
      | cons x t2 =>
        rw [List.dropLast_cons₂, validInputL, if_neg hd]
        exact validBody_sublist (List.Sublist.cons₂ d (List.dropLast_sublist (x :: t2))) h

theorem validInputL_step (e : Event) (st : EngineState) (he : noPercentEvent e)
    (h : validInputL st.input = true) : validInputL (applyEvent st e).input = true := by
  cases e with
  | digit c =>
    rw [applyEvent_digit_input]
    exact validInputL_setInputChar he h
  | toggleSign =>
    rw [applyEvent, toggleSignS]
    split_ifs with h1
    · cases st.stored with
      | some s => exact h
      | none => exact (by decide : validInputL (str "-0") = true)
    · exact validInputL_negateStr h
  | percent => exact he.elim
  | op o =>
    rw [applyEvent, pressOperatorS]
    split_ifs with h1 h2 h3
    · rfl
    · rcases computeLocal (st.stored.getD []) st.input (effOp st o) with r | e2
      · rfl
      · rfl
    · exact h
    · exact h
  | equals =>
    rw [applyEvent, pressEqualsS]
    split_ifs with h1 h2 h3
    · rcases computeLocal (eqA st) (eqB st) (st.operator.getD []) with r | e2
      · rfl
      · rfl
    · exact h
    · exact h
    · exact h
  | clear => rfl
  | backspace =>
    rw [applyEvent, backspaceS]
    split_ifs with h1
    · exact validInputL_dropLast h
    · exact h

/-- **C3 (corrected)**: in every state reachable from the cleared state by a
sequence of public events other than `Percent`, `currentInput` contains at
most one decimal point and only the digits 0–9, optionally prefixed by a
single leading `-`.  (`Percent` itself can break the invariant by
reformatting the input into scientific notation; see the counterexample.) -/
theorem c3_amended (evs : List Event) (h : ∀ e ∈ evs, noPercentEvent e) :
    validInputL (runEvents evs).input = true := by
  have main : ∀ (l : List Event) (st : EngineState), (∀ e ∈ l, noPercentEvent e) →
      validInputL st.input = true → validInputL (runFrom st l).input = true := by
    intro l
    induction l with
    | nil => intro st _ hv; exact hv
    | cons e t ih =>
      intro st hl hv
      rw [runFrom_cons]
      exact ih _ (fun e2 he2 => hl e2 (List.mem_cons_of_mem _ he2))
        (validInputL_step e st (hl e (List.mem_cons_self _ _)) hv)
  exact main evs clearAllS h rfl

/-- **C3 (counterexample)**: the claimed invariant fails on the code as
stated: from the cleared state, `Digit('1')` followed by four `Percent`
events leaves `currentInput = "1e-8"`, which contains the letter `e` — not
a digit, dot, or leading minus. -/
theorem c3_counterexample :
    (runEvents [Event.digit '1', Event.percent, Event.percent, Event.percent,
      Event.percent]).input = str "1e-8" ∧
    validInputL (runEvents [Event.digit '1', Event.percent, Event.percent,
      Event.percent, Event.percent]).input = false := by decide

/-- Witness for C3 (amended) on a concrete percent-free event sequence. -/
theorem c3_witness :
    validInputL (runEvents [Event.toggleSign, Event.backspace, Event.digit '4',
      Event.digit '.', Event.digit '2']).input = true :=
  c3_amended [Event.toggleSign, Event.backspace, Event.digit '4',
    Event.digit '.', Event.digit '2'] (by decide)

/-! ## C1 -/

theorem applyEvent_core (e : Event) (st : EngineState) :
    stateCore (applyEvent st e) = coreApply e (stateCore st) := by
  obtain ⟨i, s, o, d, su⟩ := st
  cases e with
  | digit ch =>
    simp only [applyEvent, setInputCharS, coreApply, stateCore]
    split_ifs <;> rfl
  | toggleSign =>
    simp only [applyEvent, toggleSignS, coreApply, stateCore]
    split_ifs
    · cases s <;> rfl
    · rfl
  | percent =>
    simp only [applyEvent, pressPercentS, coreApply, stateCore]
    split_ifs
    · rcases parseQ i with _ | v <;> rfl
    · rcases parseQ (Option.getD s []) with _ | v <;> rfl
    · rfl
  | op op0 =>
    simp only [applyEvent, pressOperatorS, coreApply, stateCore, effOp]
    split_ifs
    · rfl
    · rcases computeLocal (Option.getD s []) i (effOpC o op0) with r | m <;> rfl
    · rfl
    · rfl
  | equals =>
    simp only [applyEvent, pressEqualsS, coreApply, stateCore, eqA, eqB]
    split_ifs
    · rcases computeLocal (eqAC s) (eqAC s) (Option.getD o []) with r | m <;> rfl
    · rcases computeLocal (eqAC s) i (Option.getD o []) with r | m <;> rfl
    · rfl
    · rfl
    · rfl
  | clear => rfl
  | backspace =>
    simp only [applyEvent, backspaceS, coreApply, stateCore]
    split_ifs <;> rfl

theorem stateCore_runFrom (evs : List Event) :
    ∀ s t : EngineState, stateCore s = stateCore t →
      stateCore (runFrom s evs) = stateCore (runFrom t evs) := by
  induction evs with
  | nil => intro s t h; exact h
  | cons e l ih =>
    intro s t h
    rw [runFrom_cons, runFrom_cons]
    exact ih _ _ (by rw [applyEvent_core, applyEvent_core, h])

/-- **C1 (amended)**: arithmetic errors raised during binary evaluation —
in `pressOperator`'s evaluate-then-chain branch and in `pressEquals` — cause
a full state reset (input, stored operand and pending operator all cleared),
the display shows the literal `"Error"`, the status line carries the error
message, and the resulting state behaves exactly as the cleared state on
every subsequent event sequence (its behavioural core coincides with the
cleared state's).  Scenario 2 (`7 / 0 =`) follows, including `Digit('1')`
afterwards showing `"1"`.  (`pressPercent`'s InvalidNumber guard, by
contrast, only writes the status message — see the counterexample.) -/
theorem c1_amended :
    (∀ (st : EngineState) (op msg : Str), st.stored ≠ none → st.input ≠ [] →
      computeLocal (st.stored.getD []) st.input (effOp st op) = CLResult.err msg →
      pressOperatorS st op =
        { input := [], stored := none, operator := none,
          display := str "Error", status := msg }) ∧
    (∀ (st : EngineState) (msg : Str), optTruthy st.operator = true →
      computeLocal (eqA st) (eqB st) (st.operator.getD []) = CLResult.err msg →
      pressEqualsS st =
        { input := [], stored := none, operator := none,
          display := str "Error", status := msg }) ∧
    (∀ (msg : Str) (evs : List Event),
      stateCore (runFrom { input := [], stored := none, operator := none,
                           display := str "Error", status := msg } evs)
        = stateCore (runEvents evs)) ∧
    ((runEvents [Event.digit '7', Event.op (str "/"), Event.digit '0', Event.equals])
        = { input := [], stored := none, operator := none,
            display := str "Error", status := str "Division by zero" } ∧
      (runEvents [Event.digit '7', Event.op (str "/"), Event.digit '0', Event.equals,
        Event.digit '1']).display = str "1") := by
  refine ⟨?_, ?_, ?_, by decide, by decide⟩
  · intro st op msg h1 h2 herr
    rw [pressOperatorS, if_neg (by simp [h1]), if_pos ⟨h1, h2⟩, herr]
  · intro st msg htr herr
    rw [pressEqualsS, if_pos htr, herr]
  · intro msg evs
    exact stateCore_runFrom evs _ _ rfl

/-- **C1 (counterexample)**: the claim fails as stated.  From the cleared
state, `ToggleSign` then `Backspace` leaves `currentInput = "-"`; `Percent`
then raises the InvalidNumber condition but performs no reset: the status
line says "Invalid number" while the display is not `"Error"`, the input is
not cleared, and a following `Digit('1')` shows `"-1"`, not `"1"`. -/
theorem c1_counterexample :
    (runEvents [Event.toggleSign, Event.backspace, Event.percent]).status
      = str "Invalid number" ∧
    (runEvents [Event.toggleSign, Event.backspace, Event.percent]).display
      ≠ str "Error" ∧
    (runEvents [Event.toggleSign, Event.backspace, Event.percent]).input ≠ [] ∧
    (runEvents [Event.toggleSign, Event.backspace, Event.percent,
      Event.digit '1']).display = str "-1" := by decide

/-- Witness for C1 (amended): an InvalidNumber error in the operator
chain-evaluation branch, and one in equals. -/
theorem c1_witness :
    pressOperatorS { input := str "2", stored := some (str "-"), operator := none,
                     display := str "2", status := [] } (str "+")
      = { input := [], stored := none, operator := none,
          display := str "Error", status := str "Invalid number" } ∧
    pressEqualsS { input := [], stored := some (str "-"), operator := some (str "/"),
                   display := str "-", status := [] }
      = { input := [], stored := none, operator := none,
          display := str "Error", status := str "Invalid number" } :=
  ⟨c1_amended.1 _ (str "+") (str "Invalid number") (by decide) (by decide) (by decide),
   c1_amended.2.1 _ (str "Invalid number") (by decide) (by decide)⟩

/-! ## C9: digit-string toolkit -/

theorem digitsVal_foldl_acc : ∀ (l : Str) (acc : ℕ),
    l.foldl (fun a c => 10 * a + digitVal c) acc = acc * 10 ^ l.length + digitsVal l := by
  intro l
  induction l with
  | nil => intro acc; simp [digitsVal]
  | cons c t ih =>
    intro acc
    rw [List.foldl_cons, ih]
    have h2 : digitsVal (c :: t) = digitVal c * 10 ^ t.length + digitsVal t := by
      rw [digitsVal, List.foldl_cons, ih]
      ring_nf
    rw [h2, List.length_cons]
    ring

theorem digitsVal_append (a b : Str) :
    digitsVal (a ++ b) = digitsVal a * 10 ^ b.length + digitsVal b := by
  rw [digitsVal, List.foldl_append, digitsVal_foldl_acc]
  rfl

theorem digitsVal_cons (c : Char) (t : Str) :
    digitsVal (c :: t) = digitVal c * 10 ^ t.length + digitsVal t := by
  rw [digitsVal, List.foldl_cons, digitsVal_foldl_acc]
  ring_nf

theorem digitsVal_all_zero {l : Str} (h : ∀ c ∈ l, c = '0') : digitsVal l = 0 := by
  induction l with
  | nil => rfl
  | cons c t ih =>
    rw [digitsVal_cons, ih (fun c2 hc => h c2 (List.mem_cons_of_mem _ hc)),
      h c (List.mem_cons_self _ _)]
    have h0 : digitVal '0' = 0 := rfl
    rw [h0, Nat.zero_mul]

theorem digitsVal_replicate_zero (k : ℕ) : digitsVal (List.replicate k '0') = 0 :=
  digitsVal_all_zero (fun _ hc => List.eq_of_mem_replicate hc)

theorem digitChar_spec (m : ℕ) (h : m < 10) :
    isDigitChar (digitChar m) = true ∧ digitVal (digitChar m) = m ∧
      (m ≠ 0 → '1' ≤ digitChar m ∧ digitChar m ≤ '9') ∧
      (m = 0 → digitChar m = '0') := by
  interval_cases m <;> exact ⟨by decide, by decide, by decide, by decide⟩

theorem natStrAux_correct : ∀ f n, n ≤ f → digitsVal (natStrAux f n) = n := by
  intro f
  induction f with
  | zero =>
    intro n h
    have : n = 0 := by omega
    subst this
    rfl
  | succ f ih =>
    intro n h
    rw [natStrAux]
    split_ifs with h0
    · subst h0; rfl
    · have hlt : n / 10 < n := Nat.div_lt_self (by omega) (by norm_num)
      rw [digitsVal_append, ih (n / 10) (by omega)]
      have hd : digitsVal [digitChar (n % 10)] = n % 10 := by
        rw [digitsVal, List.foldl_cons, List.foldl_nil]
        have := (digitChar_spec (n % 10) (Nat.mod_lt _ (by norm_num))).2.1
        omega
      rw [hd, List.length_cons, List.length_nil]
      have := Nat.div_add_mod n 10
      have hp : (10 : ℕ) ^ (0 + 1) = 10 := by norm_num
      rw [hp]
      omega

theorem digitsVal_natStr (n : ℕ) : digitsVal (natStr n) = n :=
  natStrAux_correct n n le_rfl

theorem natStrAux_digits : ∀ f n, ∀ c ∈ natStrAux f n, isDigitChar c = true := by
  intro f
  induction f with
  | zero => intro n c hc; exact absurd hc (by simp [natStrAux])
  | succ f ih =>
    intro n c hc
    rw [natStrAux] at hc
    split_ifs at hc with h0
    · exact absurd hc (by simp)
    · rcases List.mem_append.1 hc with h1 | h2
      · exact ih _ c h1
      · rw [List.mem_singleton] at h2
        subst h2
        exact (digitChar_spec (n % 10) (Nat.mod_lt _ (by norm_num))).1

theorem natStr_digits (n : ℕ) : ∀ c ∈ natStr n, isDigitChar c = true :=
  natStrAux_digits n n

theorem natStrAux_length : ∀ f n m, n ≤ f → 10 ^ m ≤ n → n < 10 ^ (m + 1) →
    (natStrAux f n).length = m + 1 := by
  intro f
  induction f with
  | zero =>
    intro n m h hl hu
    have h1 : 1 ≤ 10 ^ m := Nat.one_le_pow m 10 (by norm_num)
    omega
  | succ f ih =>
    intro n m hle hl hu
    have h1 : 1 ≤ 10 ^ m := Nat.one_le_pow m 10 (by norm_num)
    rw [natStrAux, if_neg (by omega), List.length_append]
    cases m with
    | zero =>
      have hn10 : n < 10 := by simpa using hu
      have hz : n / 10 = 0 := Nat.div_eq_of_lt hn10
      rw [hz]
      have he : natStrAux f 0 = [] := by cases f <;> rfl
      rw [he]
      rfl
    | succ m2 =>
      have hd1 : 10 ^ m2 ≤ n / 10 := by
        rw [Nat.le_div_iff_mul_le (by norm_num)]
        calc 10 ^ m2 * 10 = 10 ^ (m2 + 1) := by ring
          _ ≤ n := hl
      have hd2 : n / 10 < 10 ^ (m2 + 1) := by
        rw [Nat.div_lt_iff_lt_mul (by norm_num)]
        calc n < 10 ^ (m2 + 1 + 1) := hu
          _ = 10 ^ (m2 + 1) * 10 := by ring
      have hlt : n / 10 < n := Nat.div_lt_self (by omega) (by norm_num)
      rw [ih (n / 10) m2 (by omega) hd1 hd2]
      rfl

theorem natStrAux_last : ∀ f n, n ≠ 0 → n ≤ f →
    (natStrAux f n).getLast? = some (digitChar (n % 10)) := by
  intro f
  cases f with
  | zero => intro n h0 h; omega
  | succ f =>
    intro n h0 h
    rw [natStrAux, if_neg h0, List.getLast?_concat]

theorem natStr_last (n : ℕ) (h : n ≠ 0) :
    (natStr n).getLast? = some (digitChar (n % 10)) :=
  natStrAux_last n n h le_rfl

theorem natStr_length (n m : ℕ) (hl : 10 ^ m ≤ n) (hu : n < 10 ^ (m + 1)) :
    (natStr n).length = m + 1 :=
  natStrAux_length n n m le_rfl hl hu

/-! ## C9: parse lemmas -/

theorem digit_ne_plus {c : Char} (h : isDigitChar c = true) : c ≠ '+' :=
  fun hh => by subst hh; exact absurd h (by decide)

theorem takeWhile_append_all {p : Char → Bool} {l1 : Str} (l2 : Str)
    (h : ∀ c ∈ l1, p c = true) :
    (l1 ++ l2).takeWhile p = l1 ++ l2.takeWhile p := by
  induction l1 with
  | nil => rfl
  | cons c t ih =>
    rw [List.cons_append, List.takeWhile_cons_of_pos (h c (List.mem_cons_self _ _)),
      ih (fun c2 hc => h c2 (List.mem_cons_of_mem _ hc)), List.cons_append]

theorem dropWhile_append_all {p : Char → Bool} {l1 : Str} (l2 : Str)
    (h : ∀ c ∈ l1, p c = true) :
    (l1 ++ l2).dropWhile p = l2.dropWhile p := by
  induction l1 with
  | nil => rfl
  | cons c t ih =>
    rw [List.cons_append, List.dropWhile_cons_of_pos (h c (List.mem_cons_self _ _)),
      ih (fun c2 hc => h c2 (List.mem_cons_of_mem _ hc))]

/-- The head of the dot-and-exponent remainder is never a digit, so
`takeWhile`/`dropWhile` stop there. -/
theorem takeWhile_tail_nil {tail : Str} (htail : tail = [] ∨ ∃ r, tail = 'e' :: r) :
    tail.takeWhile isDigitChar = [] ∧ tail.dropWhile isDigitChar = tail := by
  rcases htail with rfl | ⟨r, rfl⟩
  · exact ⟨rfl, rfl⟩
  · exact ⟨List.takeWhile_cons_of_neg (by decide), List.dropWhile_cons_of_neg (by decide)⟩


/-- Master parse lemma: `parseQ` on `[-] ip [. fr] tail` with digit lists
`ip ≠ []`, `fr`, and a `tail` that is empty or an exponent part. -/
theorem parseQ_build (neg : Bool) (ip fr tail : Str)
    (hip : ∀ c ∈ ip, isDigitChar c = true) (hfr : ∀ c ∈ fr, isDigitChar c = true)
    (hipne : ip ≠ [])
    (htail : tail = [] ∨ ∃ r, tail = 'e' :: r) :
    parseQ ((if neg then ['-'] else []) ++ ip ++
        (if fr = [] then [] else '.' :: fr) ++ tail)
      = some (qmul (qmul (if neg then (-1 : ℚ) else 1)
          (qadd ((digitsVal ip : ℕ) : ℚ)
            (qdiv ((digitsVal fr : ℕ) : ℚ) (qpow10 fr.length))))
        (qpow10 (parseExp tail))) := by
  obtain ⟨htw, hdw⟩ := takeWhile_tail_nil htail
  set dot : Str := (if fr = [] then [] else '.' :: fr) with hdot
  have htake : (ip ++ (dot ++ tail)).takeWhile isDigitChar = ip := by
    rw [takeWhile_append_all _ hip]
    rcases eq_or_ne fr [] with hf | hf
    · rw [hdot, if_pos hf, List.nil_append, htw, List.append_nil]
    · rw [hdot, if_neg hf, List.cons_append,
        List.takeWhile_cons_of_neg (show ¬isDigitChar '.' = true by decide),
        List.append_nil]
  have hdrop : (ip ++ (dot ++ tail)).dropWhile isDigitChar = dot ++ tail := by
    rw [dropWhile_append_all _ hip]
    rcases eq_or_ne fr [] with hf | hf
    · rw [hdot, if_pos hf, List.nil_append, hdw]
    · rw [hdot, if_neg hf, List.cons_append,
        List.dropWhile_cons_of_neg (show ¬isDigitChar '.' = true by decide)]
  have hsf : splitFrac (dot ++ tail) = (fr, tail) := by
    rcases eq_or_ne fr [] with hf | hf
    · rw [hdot, if_pos hf, List.nil_append]
      subst hf
      rcases htail with rfl | ⟨r, rfl⟩
      · rfl
      · rw [splitFrac, if_neg (show ¬('e' : Char) = '.' by decide)]
    · rw [hdot, if_neg hf, List.cons_append, splitFrac, if_pos rfl,
        takeWhile_append_all _ hfr, htw, List.append_nil,
        dropWhile_append_all _ hfr, hdw]
  have hss : splitSign ((if neg then ['-'] else []) ++ ip ++ dot ++ tail)
      = ((if neg then (-1 : ℚ) else 1), ip ++ (dot ++ tail)) := by
    obtain ⟨c0, ip2, rfl⟩ : ∃ c0 ip2, ip = c0 :: ip2 := by
      cases ip with
      | nil => exact absurd rfl hipne
      | cons a b => exact ⟨a, b, rfl⟩
    have hc0 := hip c0 (List.mem_cons_self _ _)
    cases neg with
    | false =>
      rw [if_neg (by simp), if_neg (by simp), List.nil_append, List.append_assoc,
        List.cons_append, splitSign, if_neg (digit_ne_minus hc0),
        if_neg (digit_ne_plus hc0)]
    | true =>
      rw [if_pos rfl, if_pos rfl]
      rw [show (['-'] : Str) ++ (c0 :: ip2) ++ dot ++ tail
          = '-' :: ((c0 :: ip2) ++ (dot ++ tail)) by simp]
      rw [splitSign, if_pos rfl]
  simp only [parseQ, hss, htake, hdrop, hsf]
  rw [if_neg (show ¬(ip = [] ∧ fr = []) from fun h => hipne h.1)]

theorem takeWhile_all {p : Char → Bool} {l : Str} (h : ∀ c ∈ l, p c = true) :
    l.takeWhile p = l := by
  induction l with
  | nil => rfl
  | cons c t ih =>
    rw [List.takeWhile_cons_of_pos (h c (List.mem_cons_self _ _)),
      ih (fun c2 hc => h c2 (List.mem_cons_of_mem _ hc))]

theorem natStr_ne_nil {n : ℕ} (h : n ≠ 0) : natStr n ≠ [] := by
  intro he
  have hv := digitsVal_natStr n
  rw [he] at hv
  exact h hv.symm

theorem parseExpTail_expChars (m : ℤ) : parseExpTail (expChars m) = m := by
  rw [expChars]
  split_ifs with hm
  · have hM0 : (-m).toNat ≠ 0 := by omega
    have hs : splitExpSign ('-' :: natStr (-m).toNat) = (-1, natStr (-m).toNat) := by
      rw [splitExpSign, if_pos rfl]
    simp only [parseExpTail, hs]
    rw [takeWhile_all (natStr_digits _), if_neg (natStr_ne_nil hM0), digitsVal_natStr]
    omega
  · have hs : splitExpSign ('+' :: natStr m.toNat) = (1, natStr m.toNat) := by
      rw [splitExpSign, if_neg (by decide), if_pos rfl]
    simp only [parseExpTail, hs]
    rw [takeWhile_all (natStr_digits _)]
    rcases eq_or_ne m.toNat 0 with h0 | h0
    · rw [h0, show natStr 0 = [] from rfl, if_pos rfl]
      omega
    · rw [if_neg (natStr_ne_nil h0), digitsVal_natStr]
      omega

theorem parseExp_exp (m : ℤ) : parseExp ('e' :: expChars m) = m := by
  rw [parseExp, if_pos (Or.inl rfl), parseExpTail_expChars]

/-- `parseQ` on `[-] ip [. fr] tail`, with the value written with the
standard `ℚ` operations. -/
theorem parseQ_build_val (neg : Bool) (ip fr tail : Str)
    (hip : ∀ c ∈ ip, isDigitChar c = true) (hfr : ∀ c ∈ fr, isDigitChar c = true)
    (hipne : ip ≠ [])
    (htail : tail = [] ∨ ∃ r, tail = 'e' :: r) :
    parseQ ((if neg then ['-'] else []) ++ ip ++
        (if fr = [] then [] else '.' :: fr) ++ tail)
      = some ((if neg then (-1 : ℚ) else 1)
          * (((digitsVal ip : ℕ) : ℚ) + ((digitsVal fr : ℕ) : ℚ) / 10 ^ fr.length)
          * (10 : ℚ) ^ parseExp tail) := by
  rw [parseQ_build neg ip fr tail hip hfr hipne htail]
  rw [qmul_eq, qmul_eq, qadd_eq, qdiv_eq, qpow10_eq, qpow10_eq, zpow_natCast]

/-! ## C9: trimming lemmas -/

theorem dropWhile_head_not {p : Char → Bool} :
    ∀ (l : Str) {c : Char} {t : Str}, l.dropWhile p = c :: t → p c = false := by
  intro l
  induction l with
  | nil => intro c t h; exact absurd h (by simp)
  | cons a l2 ih =>
    intro c t h
    by_cases ha : p a = true
    · rw [List.dropWhile_cons_of_pos ha] at h
      exact ih h
    · rw [List.dropWhile_cons_of_neg ha] at h
      injection h with h1 _
      subst h1
      exact Bool.eq_false_iff.2 ha

theorem char_digit_succ {c : Char} (hd : isDigitChar c = true) (h0 : c ≠ '0') :
    '1' ≤ c ∧ c ≤ '9' := by
  rw [isDigitChar, Bool.and_eq_true, decide_eq_true_eq, decide_eq_true_eq] at hd
  obtain ⟨h1, h2⟩ := hd
  refine ⟨?_, h2⟩
  rw [Char.le_def, UInt32.le_def, BitVec.le_def] at h1 ⊢
  have hne : c.val.toBitVec.toNat ≠ ('0' : Char).val.toBitVec.toNat := by
    intro he
    exact h0 (Char.eq_of_val_eq (UInt32.eq_of_toBitVec_eq (BitVec.eq_of_toNat_eq he)))
  have h48 : ('0' : Char).val.toBitVec.toNat = 48 := by decide
  have h49 : ('1' : Char).val.toBitVec.toNat = 49 := by decide
  omega

theorem stripzA_of_rz0 {s : Str}
    (h : (s.reverse.takeWhile (fun c => c = '0')).length = 0) : stripzA s = s := by
  simp only [stripzA]
  rw [h, if_pos rfl]

theorem stripzB_of_rz0 {s : Str}
    (h : (s.reverse.takeWhile (fun c => c = '0')).length = 0) : stripzB s = s := by
  simp only [stripzB]
  rw [h, if_pos rfl]

theorem rz_zero_of_last {s : Str} {c : Char} (hl : s.getLast? = some c) (hc : c ≠ '0') :
    (s.reverse.takeWhile (fun c => c = '0')).length = 0 := by
  rw [List.getLast?_eq_head?_reverse] at hl
  cases hrev : s.reverse with
  | nil => rw [hrev] at hl; exact absurd hl (by simp)
  | cons a r =>
    rw [hrev] at hl
    have ha : a = c := by simpa using hl
    subst ha
    rw [List.takeWhile_cons_of_neg (by simp [hc])]
    rfl

theorem trimTrailing_of_last {s : Str} {c : Char} (hl : s.getLast? = some c)
    (hc : c ≠ '0') : trimTrailing s = s := by
  have hz := rz_zero_of_last hl hc
  rw [trimTrailing]
  split_ifs with hd
  · rw [stripzA_of_rz0 hz, stripzB_of_rz0 hz]
  · rfl

theorem trimTrailing_of_nodot {s : Str} (h : '.' ∉ s) : trimTrailing s = s := by
  rw [trimTrailing, if_neg h]

/-- Trimming a `[-] ip . fr` decimal string drops the trailing zeros of the
fraction, and the dot as well when the fraction was all zeros. -/
theorem trim_decimal (sgn ip fr : Str)
    (hfr : ∀ c ∈ fr, isDigitChar c = true) (hfrne : fr ≠ []) :
    trimTrailing (sgn ++ ip ++ '.' :: fr)
      = sgn ++ ip ++ (if rstrip fr = [] then [] else '.' :: rstrip fr) := by
  have hdotmem : '.' ∈ sgn ++ ip ++ '.' :: fr :=
    List.mem_append.2 (Or.inr (List.mem_cons_self _ _))
  set zs := fr.reverse.takeWhile (fun c => c = '0') with hzs
  set rest := fr.reverse.dropWhile (fun c => c = '0') with hrw
  have hsplit : zs ++ rest = fr.reverse := by
    rw [hzs, hrw]
    exact List.takeWhile_append_dropWhile _ _
  have hzs0 : ∀ c ∈ zs, (fun c => decide (c = '0')) c = true := by
    intro c hc
    rw [hzs] at hc
    have h2 := List.mem_takeWhile_imp hc
    exact h2
  have hrev : (sgn ++ ip ++ '.' :: fr).reverse
      = zs ++ (rest ++ '.' :: (ip.reverse ++ sgn.reverse)) := by
    rw [List.reverse_append, List.reverse_append, List.reverse_cons, ← hsplit]
    simp [List.append_assoc]
  have hrestsub : rest ⊆ fr.reverse := by
    rw [hrw]
    exact (List.dropWhile_sublist _).subset
  have htwz : ((sgn ++ ip ++ '.' :: fr).reverse.takeWhile (fun c => c = '0')) = zs := by
    rw [hrev, takeWhile_append_all _ hzs0]
    have hrest0 : (rest ++ '.' :: (ip.reverse ++ sgn.reverse)).takeWhile
        (fun c => decide (c = '0')) = [] := by
      cases hres : rest with
      | nil => rw [List.nil_append, List.takeWhile_cons_of_neg (by decide)]
      | cons c t0 =>
        have hc0 : (fun c => decide (c = '0')) c = false :=
          dropWhile_head_not _ (hrw.symm.trans hres)
        rw [List.cons_append, List.takeWhile_cons_of_neg (by simp_all)]
    rw [hrest0, List.append_nil]
  rcases eq_or_ne zs [] with hz | hz
  · have hrz0 : ((sgn ++ ip ++ '.' :: fr).reverse.takeWhile
        (fun c => c = '0')).length = 0 := by
      rw [htwz, hz]
      rfl
    have hfr2 : rstrip fr = fr := by
      have hre : rest = fr.reverse := by rw [← hsplit, hz, List.nil_append]
      rw [rstrip, ← hrw, hre, List.reverse_reverse]
    rw [trimTrailing, if_pos hdotmem, stripzA_of_rz0 hrz0, stripzB_of_rz0 hrz0,
      hfr2, if_neg hfrne]
  · have hlen : zs.length ≠ 0 := fun h => hz (List.length_eq_zero.1 h)
    have hdrop : (sgn ++ ip ++ '.' :: fr).reverse.drop zs.length
        = rest ++ '.' :: (ip.reverse ++ sgn.reverse) := by
      rw [hrev, List.drop_left]
    cases hres : rest with
    | nil =>
      have hsA : stripzA (sgn ++ ip ++ '.' :: fr) = sgn ++ ip ++ '.' :: fr := by
        simp only [stripzA]
        rw [htwz, if_neg hlen, hdrop, hres, List.nil_append, stripzACore,
          if_neg (by decide)]
      have hsB : stripzB (sgn ++ ip ++ '.' :: fr) = sgn ++ ip := by
        simp only [stripzB]
        rw [htwz, if_neg hlen, hdrop, hres, List.nil_append, stripzBCore, if_pos rfl,
          List.reverse_append, List.reverse_reverse, List.reverse_reverse]
      have hfrs : rstrip fr = [] := by
        rw [rstrip, ← hrw, hres]
        rfl
      rw [trimTrailing, if_pos hdotmem, hsA, hsB, hfrs, if_pos rfl, List.append_nil]
    | cons c t0 =>
      have hcd : isDigitChar c = true := by
        have hmem : c ∈ fr := by
          have hcr : c ∈ rest := hres ▸ List.mem_cons_self _ _
          exact List.mem_reverse.1 (hrestsub hcr)
        exact hfr c hmem
      have hc0 : c ≠ '0' := by
        have := dropWhile_head_not _ (hrw.symm.trans hres)
        simpa using this
      have hrange := char_digit_succ hcd hc0
      have hallr : ∀ x ∈ rest, isDigitChar x = true := by
        intro x hx
        exact hfr x (List.mem_reverse.1 (hrestsub hx))
      have hsA : stripzA (sgn ++ ip ++ '.' :: fr)
          = sgn ++ ip ++ '.' :: rest.reverse := by
        simp only [stripzA]
        rw [htwz, if_neg hlen, hdrop, hres, List.cons_append, stripzACore,
          if_pos hrange]
        have hdw : (c :: (t0 ++ '.' :: (ip.reverse ++ sgn.reverse))).dropWhile isDigitChar
            = '.' :: (ip.reverse ++ sgn.reverse) := by
          rw [show c :: (t0 ++ '.' :: (ip.reverse ++ sgn.reverse))
              = (c :: t0) ++ '.' :: (ip.reverse ++ sgn.reverse) from rfl]
          rw [dropWhile_append_all _ (by rw [← hres]; exact hallr),
            List.dropWhile_cons_of_neg (by decide)]
        rw [hdw]
        have hh : headIs '.' ('.' :: (ip.reverse ++ sgn.reverse)) = true := by
          rw [headIs]
          decide
        rw [hh, if_pos rfl]
        have hback : (c :: (t0 ++ '.' :: (ip.reverse ++ sgn.reverse)))
            = rest ++ '.' :: (ip.reverse ++ sgn.reverse) := by
          rw [hres]
          rfl
        rw [hback, List.reverse_append, List.reverse_cons, List.reverse_append,
          List.reverse_reverse, List.reverse_reverse]
        simp [List.append_assoc]
        exact hres
      have hlast : (sgn ++ ip ++ '.' :: rest.reverse).getLast? = some c := by
        rw [List.getLast?_append]
        have hlc : ('.' :: rest.reverse).getLast? = some c := by
          rw [List.getLast?_eq_head?_reverse, List.reverse_cons, List.reverse_reverse,
            hres]
          rfl
        rw [hlc]
        rfl
      have hsB : stripzB (sgn ++ ip ++ '.' :: rest.reverse)
          = sgn ++ ip ++ '.' :: rest.reverse :=
        stripzB_of_rz0 (rz_zero_of_last hlast hc0)
      have hfrs : rstrip fr = rest.reverse := by rw [rstrip, ← hrw]
      rw [trimTrailing, if_pos hdotmem, hsA, hsB, hfrs, if_neg (by rw [hres]; simp)]

/-- Trimming leaves a string ending in a signed nonzero exponent part
unchanged: the trailing-zero run of the exponent digits is preceded by a
nonzero digit and then a sign, not a decimal point. -/
theorem trimTrailing_exp (a eds : Str) (sc : Char) (hsc : sc = '+' ∨ sc = '-')
    (hed : ∀ c ∈ eds, isDigitChar c = true) (hnz : digitsVal eds ≠ 0) :
    trimTrailing (a ++ sc :: eds) = a ++ sc :: eds := by
  have hscd : isDigitChar sc = false := by rcases hsc with rfl | rfl <;> decide
  set zs := eds.reverse.takeWhile (fun c => c = '0') with hzs
  set rest := eds.reverse.dropWhile (fun c => c = '0') with hrw
  have hsplit : zs ++ rest = eds.reverse := by
    rw [hzs, hrw]
    exact List.takeWhile_append_dropWhile _ _
  have hzs0 : ∀ c ∈ zs, (fun c => decide (c = '0')) c = true := by
    intro c hc
    rw [hzs] at hc
    have h2 := List.mem_takeWhile_imp hc
    exact h2
  have hrestsub : rest ⊆ eds.reverse := by
    rw [hrw]
    exact (List.dropWhile_sublist _).subset
  have hrestne : rest ≠ [] := by
    intro hre
    apply hnz
    apply digitsVal_all_zero
    intro c hc
    have hc2 : c ∈ zs := by
      have hcr : c ∈ eds.reverse := List.mem_reverse.2 hc
      rw [← hsplit, hre, List.append_nil] at hcr
      exact hcr
    have := hzs0 c hc2
    simpa using this
  obtain ⟨c, t0, hres⟩ : ∃ c t0, rest = c :: t0 := by
    cases hre2 : rest with
    | nil => exact absurd hre2 hrestne
    | cons x y => exact ⟨x, y, rfl⟩
  have hcd : isDigitChar c = true :=
    hed c (List.mem_reverse.1 (hrestsub (hres ▸ List.mem_cons_self _ _)))
  have hc0 : c ≠ '0' := by
    have := dropWhile_head_not _ (hrw.symm.trans hres)
    simpa using this
  have hrev : (a ++ sc :: eds).reverse = zs ++ (rest ++ sc :: a.reverse) := by
    rw [List.reverse_append, List.reverse_cons, ← hsplit]
    simp [List.append_assoc]
  have htwz : ((a ++ sc :: eds).reverse.takeWhile (fun c => c = '0')) = zs := by
    rw [hrev, takeWhile_append_all _ hzs0, hres, List.cons_append,
      List.takeWhile_cons_of_neg (by simp_all), List.append_nil]
  rcases eq_or_ne zs [] with hz | hz
  · have hrz0 : ((a ++ sc :: eds).reverse.takeWhile (fun c => c = '0')).length = 0 := by
      rw [htwz, hz]
      rfl
    rw [trimTrailing]
    split_ifs with hd
    · rw [stripzA_of_rz0 hrz0, stripzB_of_rz0 hrz0]
    · rfl
  · have hlen : zs.length ≠ 0 := fun h => hz (List.length_eq_zero.1 h)
    have hdrop : (a ++ sc :: eds).reverse.drop zs.length = rest ++ sc :: a.reverse := by
      rw [hrev, List.drop_left]
    have hallr : ∀ x ∈ rest, isDigitChar x = true := fun x hx =>
      hed x (List.mem_reverse.1 (hrestsub hx))
    have hsA : stripzA (a ++ sc :: eds) = a ++ sc :: eds := by
      simp only [stripzA]
      rw [htwz, if_neg hlen, hdrop, hres, List.cons_append, stripzACore]
      have hallct : ∀ x ∈ c :: t0, isDigitChar x = true := by
        intro x hx
        rw [← hres] at hx
        exact hallr x hx
      have hdw : (c :: (t0 ++ sc :: a.reverse)).dropWhile isDigitChar
          = sc :: a.reverse := by
        have he : c :: (t0 ++ sc :: a.reverse)
            = (c :: t0) ++ sc :: a.reverse := rfl
        rw [he, dropWhile_append_all _ hallct,
          List.dropWhile_cons_of_neg (by simp [hscd])]
      have hhf : headIs '.' ((c :: (t0 ++ sc :: a.reverse)).dropWhile isDigitChar)
          = false := by
        rw [hdw]
        rcases hsc with rfl | rfl <;> rfl
      split_ifs with hr1 hr2
      · rw [hhf] at hr2
        exact absurd hr2 (by decide)
      · rfl
      · rfl
    have hsB : stripzB (a ++ sc :: eds) = a ++ sc :: eds := by
      simp only [stripzB]
      rw [htwz, if_neg hlen, hdrop, hres, List.cons_append, stripzBCore,
        if_neg (digit_ne_dot hcd)]
    rw [trimTrailing]
    split_ifs with hd
    · rw [hsA, hsB]
    · rfl

/-! ## C9: floor and logarithm specifications -/

theorem nat_lt_div_succ_mul (a b : ℕ) (hb : 0 < b) : a < (a / b + 1) * b := by
  calc a = b * (a / b) + a % b := (Nat.div_add_mod a b).symm
    _ < b * (a / b) + b := Nat.add_lt_add_left (Nat.mod_lt a hb) _
    _ = (a / b + 1) * b := by ring

theorem ratFloorPos_spec (q : ℚ) (h : 0 ≤ q) :
    ((ratFloorPos q : ℕ) : ℚ) ≤ q ∧ q < ((ratFloorPos q : ℕ) : ℚ) + 1 := by
  have hD : 0 < q.den := q.pos
  have hDQ : (0 : ℚ) < ((q.den : ℕ) : ℚ) := by exact_mod_cast hD
  have hnum : ((q.num.toNat : ℕ) : ℤ) = q.num := Int.toNat_of_nonneg (Rat.num_nonneg.2 h)
  simp only [ratFloorPos]
  set N := q.num.toNat with hN
  set D := q.den with hDdef
  have hq : q = (N : ℚ) / (D : ℚ) := by
    conv_lhs => rw [← Rat.num_div_den q]
    rw [← hnum]
    norm_num
  constructor
  · rw [hq, le_div_iff hDQ]
    exact_mod_cast Nat.div_mul_le_self N D
  · rw [hq, div_lt_iff hDQ]
    exact_mod_cast nat_lt_div_succ_mul N D hD

theorem ratFloorPos_unique (q : ℚ) (m : ℕ) (h1 : ((m : ℕ) : ℚ) ≤ q)
    (h2 : q < ((m : ℕ) : ℚ) + 1) : ratFloorPos q = m := by
  have h0 : (0 : ℚ) ≤ q := le_trans (by positivity) h1
  obtain ⟨ha, hb⟩ := ratFloorPos_spec q h0
  have hc : ((ratFloorPos q : ℕ) : ℚ) < ((m : ℕ) : ℚ) + 1 := lt_of_le_of_lt ha h2
  have hd : ((m : ℕ) : ℚ) < ((ratFloorPos q : ℕ) : ℚ) + 1 := lt_of_le_of_lt h1 hb
  have hc2 : ratFloorPos q < m + 1 := by exact_mod_cast hc
  have hd2 : m < ratFloorPos q + 1 := by exact_mod_cast hd
  omega

theorem natLog10Aux_spec : ∀ f n, 1 ≤ n → n ≤ f →
    10 ^ natLog10Aux f n ≤ n ∧ n < 10 ^ (natLog10Aux f n + 1) := by
  intro f
  induction f with
  | zero => intro n h1 h2; exact absurd h1 (by omega)
  | succ f ih =>
    intro n h1 h2
    rw [natLog10Aux]
    split_ifs with h10
    · obtain ⟨ha1, ha2⟩ := ih (n / 10) (by omega) (by omega)
      rw [pow_succ] at ha2
      have hdm := Nat.div_add_mod n 10
      constructor
      · rw [pow_succ]
        omega
      · rw [pow_succ, pow_succ]
        omega
    · refine ⟨by simpa using h1, by rw [pow_one]; omega⟩

theorem natLog10_spec (n : ℕ) (h : 1 ≤ n) :
    10 ^ natLog10 n ≤ n ∧ n < 10 ^ (natLog10 n + 1) :=
  natLog10Aux_spec n n h le_rfl

theorem negLogAux_covers : ∀ f a b, b ≤ a * 10 ^ f → b ≤ a * 10 ^ negLogAux f a b := by
  intro f
  induction f with
  | zero => intro a b hb; simpa [negLogAux] using hb
  | succ f ih =>
    intro a b hb
    rw [negLogAux]
    split_ifs with hba
    · simpa using hba
    · have he : a * 10 ^ (f + 1) = 10 * a * 10 ^ f := by ring
      have h1 := ih (10 * a) b (by rw [← he]; exact hb)
      have he2 : a * 10 ^ (negLogAux f (10 * a) b + 1)
          = 10 * a * 10 ^ negLogAux f (10 * a) b := by ring
      rw [he2]
      exact h1

theorem negLogAux_le : ∀ f a b j, b ≤ a * 10 ^ j → negLogAux f a b ≤ j := by
  intro f
  induction f with
  | zero => intro a b j _; simp [negLogAux]
  | succ f ih =>
    intro a b j hj
    rw [negLogAux]
    split_ifs with hba
    · omega
    · cases j with
      | zero =>
        rw [pow_zero, mul_one] at hj
        exact absurd hj hba
      | succ j2 =>
        have he : a * 10 ^ (j2 + 1) = 10 * a * 10 ^ j2 := by ring
        rw [he] at hj
        have := ih (10 * a) b j2 hj
        omega

theorem ratFloorLog10_spec (q : ℚ) (hq : 0 < q) :
    (10 : ℚ) ^ ratFloorLog10 q ≤ q ∧ q < (10 : ℚ) ^ (ratFloorLog10 q + 1) := by
  rw [ratFloorLog10]
  split_ifs with h1
  · have hfs := ratFloorPos_spec q hq.le
    have hm1 : 1 ≤ ratFloorPos q := by
      by_contra hm
      have hm0 : ratFloorPos q = 0 := by omega
      rw [hm0] at hfs
      push_cast at hfs
      linarith [hfs.2]
    have hls := natLog10_spec (ratFloorPos q) hm1
    have hfl : natLog10 (q.num.toNat / q.den) = natLog10 (ratFloorPos q) := rfl
    rw [hfl]
    constructor
    · rw [zpow_natCast]
      calc ((10 : ℚ)) ^ natLog10 (ratFloorPos q)
          ≤ ((ratFloorPos q : ℕ) : ℚ) := by exact_mod_cast hls.1
        _ ≤ q := hfs.1
    · have hcast : ((natLog10 (ratFloorPos q) : ℕ) : ℤ) + 1
          = ((natLog10 (ratFloorPos q) + 1 : ℕ) : ℤ) := by push_cast; ring
      rw [hcast, zpow_natCast]
      have hstep : ratFloorPos q + 1 ≤ 10 ^ (natLog10 (ratFloorPos q) + 1) := hls.2
      calc q < ((ratFloorPos q : ℕ) : ℚ) + 1 := hfs.2
        _ ≤ ((10 : ℚ)) ^ (natLog10 (ratFloorPos q) + 1) := by exact_mod_cast hstep
  · have hqlt : q < 1 := lt_of_not_le h1
    have hnum : 0 < q.num := Rat.num_pos.2 hq
    have ha : 1 ≤ q.num.toNat := by omega
    have hb : 0 < q.den := q.pos
    have hbQ : (0 : ℚ) < ((q.den : ℕ) : ℚ) := by exact_mod_cast hb
    have hnum2 : ((q.num.toNat : ℕ) : ℤ) = q.num := Int.toNat_of_nonneg hnum.le
    have hq_eq : q = ((q.num.toNat : ℕ) : ℚ) / ((q.den : ℕ) : ℚ) := by
      have hc : ((q.num.toNat : ℕ) : ℚ) = ((q.num : ℤ) : ℚ) := by exact_mod_cast hnum2
      rw [hc, Rat.num_div_den]
    have hab : q.num.toNat < q.den := by
      rw [hq_eq, div_lt_one hbQ] at hqlt
      exact_mod_cast hqlt
    have hfuel : q.den ≤ q.num.toNat * 10 ^ q.den := by
      calc q.den ≤ 10 ^ q.den := (Nat.lt_pow_self (by norm_num) q.den).le
        _ = 1 * 10 ^ q.den := (one_mul _).symm
        _ ≤ q.num.toNat * 10 ^ q.den := Nat.mul_le_mul_right _ ha
    have hcov := negLogAux_covers q.den q.num.toNat q.den hfuel
    set k := negLogAux q.den q.num.toNat q.den with hkdef
    have hk1 : 1 ≤ k := by
      by_contra hk
      have hk0 : k = 0 := by omega
      rw [hk0, pow_zero, mul_one] at hcov
      omega
    have hmin : q.num.toNat * 10 ^ (k - 1) < q.den := by
      by_contra hcon
      have := negLogAux_le q.den q.num.toNat q.den (k - 1) (by omega)
      omega
    have hpk : (0 : ℚ) < ((10 ^ k : ℕ) : ℚ) := by positivity
    have hpk1 : (0 : ℚ) < ((10 ^ (k - 1) : ℕ) : ℚ) := by positivity
    constructor
    · rw [zpow_neg, zpow_natCast, hq_eq, inv_eq_one_div,
        show ((10 : ℚ)) ^ k = ((10 ^ k : ℕ) : ℚ) by push_cast; ring,
        div_le_div_iff hpk hbQ]
      calc (1 : ℚ) * q.den = q.den := one_mul _
        _ ≤ ((q.num.toNat * 10 ^ k : ℕ) : ℚ) := by exact_mod_cast hcov
        _ = (q.num.toNat : ℚ) * ((10 ^ k : ℕ) : ℚ) := by push_cast; ring
    · have hexp : -((k : ℕ) : ℤ) + 1 = -(((k - 1 : ℕ) : ℕ) : ℤ) := by omega
      rw [hexp, zpow_neg, zpow_natCast, hq_eq, inv_eq_one_div,
        show ((10 : ℚ)) ^ (k - 1) = ((10 ^ (k - 1) : ℕ) : ℚ) by push_cast; ring,
        div_lt_div_iff hbQ hpk1]
      calc (q.num.toNat : ℚ) * ((10 ^ (k - 1) : ℕ) : ℚ)
          = ((q.num.toNat * 10 ^ (k - 1) : ℕ) : ℚ) := by push_cast; ring
        _ < ((q.den : ℕ) : ℚ) := by exact_mod_cast hmin
        _ = 1 * q.den := (one_mul _).symm

theorem ratFloorLog10_unique (q : ℚ) (hq : 0 < q) (e : ℤ)
    (h1 : (10 : ℚ) ^ e ≤ q) (h2 : q < (10 : ℚ) ^ (e + 1)) : ratFloorLog10 q = e := by
  obtain ⟨g1, g2⟩ := ratFloorLog10_spec q hq
  by_contra hne
  rcases lt_or_gt_of_ne hne with hlt | hgt
  · have : (10 : ℚ) ^ (ratFloorLog10 q + 1) ≤ 10 ^ e :=
      zpow_le_zpow_right₀ (by norm_num) (by omega)
    linarith
  · have : (10 : ℚ) ^ (e + 1) ≤ 10 ^ ratFloorLog10 q :=
      zpow_le_zpow_right₀ (by norm_num) (by omega)
    linarith

theorem divInt_one_two : (Rat.divInt 1 2 : ℚ) = 1 / 2 := by
  rw [Rat.divInt_eq_div]
  norm_num

/-- The significand returned by `sigRound` on a positive input always has
exactly 12 digits. -/
theorem sigRound_bounds (x : ℚ) (hx : 0 < x) :
    10 ^ 11 ≤ (sigRound x).1 ∧ (sigRound x).1 < 10 ^ 12 := by
  obtain ⟨h1, h2⟩ := ratFloorLog10_spec x hx
  simp only [sigRound]
  set e := ratFloorLog10 x with hedef
  have hnz : (10 : ℚ) ≠ 0 := by norm_num
  have hp : (0 : ℚ) < (10 : ℚ) ^ (11 - e) := zpow_pos (by norm_num) _
  have hy : qadd (qmul x (qpow10 (11 - e))) (Rat.divInt 1 2)
      = x * (10 : ℚ) ^ (11 - e) + 1 / 2 := by
    rw [qadd_eq, qmul_eq, qpow10_eq, divInt_one_two]
  have hylo : (10 ^ 11 : ℚ) ≤ x * (10 : ℚ) ^ (11 - e) := by
    have hm := mul_le_mul_of_nonneg_right h1 hp.le
    rw [← zpow_add₀ hnz, show e + (11 - e) = (11 : ℤ) by ring] at hm
    calc (10 ^ 11 : ℚ) = (10 : ℚ) ^ (11 : ℤ) := by norm_num
      _ ≤ x * (10 : ℚ) ^ (11 - e) := hm
  have hyhi : x * (10 : ℚ) ^ (11 - e) < (10 ^ 12 : ℚ) := by
    have hm := mul_lt_mul_of_pos_right h2 hp
    rw [← zpow_add₀ hnz, show e + 1 + (11 - e) = (12 : ℤ) by ring] at hm
    calc x * (10 : ℚ) ^ (11 - e) < (10 : ℚ) ^ (12 : ℤ) := hm
      _ = (10 ^ 12 : ℚ) := by norm_num
  set t := x * (10 : ℚ) ^ (11 - e) with htdef
  have hy0 : (0 : ℚ) ≤ t + 1 / 2 := by linarith
  obtain ⟨hfa, hfb⟩ := ratFloorPos_spec (t + 1 / 2) hy0
  have hlo : 10 ^ 11 ≤ ratFloorPos (t + 1 / 2) := by
    have hlt : (10 ^ 11 : ℚ) < ((ratFloorPos (t + 1 / 2) : ℕ) : ℚ) + 1 := by linarith
    have h3 : (10 ^ 11 : ℕ) < ratFloorPos (t + 1 / 2) + 1 := by exact_mod_cast hlt
    omega
  have hhi : ratFloorPos (t + 1 / 2) ≤ 10 ^ 12 := by
    have hlt : ((ratFloorPos (t + 1 / 2) : ℕ) : ℚ) < (10 ^ 12 : ℚ) + 1 := by linarith
    have h4 : ratFloorPos (t + 1 / 2) < 10 ^ 12 + 1 := by exact_mod_cast hlt
    omega
  rw [hy]
  split_ifs with hcase
  · constructor
    · show (10 : ℕ) ^ 11 ≤ 10 ^ 11
      exact le_rfl
    · show (10 : ℕ) ^ 11 < 10 ^ 12
      norm_num
  · refine ⟨hlo, ?_⟩
    show ratFloorPos (t + 1 / 2) < 10 ^ 12
    omega

/-- `sigRound` recovers an exactly-representable 12-digit significand. -/
theorem sigRound_exact (n : ℕ) (e : ℤ) (h1 : 10 ^ 11 ≤ n) (h2 : n < 10 ^ 12) :
    sigRound ((n : ℚ) * (10 : ℚ) ^ (e - 11)) = (n, e) := by
  have hnz : (10 : ℚ) ≠ 0 := by norm_num
  have hp : (0 : ℚ) < (10 : ℚ) ^ (e - 11) := zpow_pos (by norm_num) _
  have hn' : 0 < n := lt_of_lt_of_le (by norm_num) h1
  have hn0 : (0 : ℚ) < (n : ℚ) := by exact_mod_cast hn'
  have hxpos : (0 : ℚ) < (n : ℚ) * (10 : ℚ) ^ (e - 11) := mul_pos hn0 hp
  have hL : ratFloorLog10 ((n : ℚ) * (10 : ℚ) ^ (e - 11)) = e := by
    apply ratFloorLog10_unique _ hxpos
    · calc (10 : ℚ) ^ e = (10 : ℚ) ^ (11 : ℤ) * (10 : ℚ) ^ (e - 11) := by
            rw [← zpow_add₀ hnz]
            congr 1
            ring
        _ ≤ (n : ℚ) * (10 : ℚ) ^ (e - 11) := by
            apply mul_le_mul_of_nonneg_right _ hp.le
            calc (10 : ℚ) ^ (11 : ℤ) = ((10 ^ 11 : ℕ) : ℚ) := by push_cast; norm_num
              _ ≤ (n : ℚ) := by exact_mod_cast h1
    · calc (n : ℚ) * (10 : ℚ) ^ (e - 11)
          < (10 : ℚ) ^ (12 : ℤ) * (10 : ℚ) ^ (e - 11) := by
            apply mul_lt_mul_of_pos_right _ hp
            calc (n : ℚ) < ((10 ^ 12 : ℕ) : ℚ) := by exact_mod_cast h2
              _ = (10 : ℚ) ^ (12 : ℤ) := by push_cast; norm_num
        _ = (10 : ℚ) ^ (e + 1) := by
            rw [← zpow_add₀ hnz]
            congr 1
            ring
  simp only [sigRound, hL]
  have hXY : qadd (qmul ((n : ℚ) * (10 : ℚ) ^ (e - 11)) (qpow10 (11 - e))) (Rat.divInt 1 2)
      = (n : ℚ) + 1 / 2 := by
    rw [qadd_eq, qmul_eq, qpow10_eq, divInt_one_two, mul_assoc,
      ← zpow_add₀ hnz, show e - 11 + (11 - e) = (0 : ℤ) by ring, zpow_zero, mul_one]
  rw [hXY]
  have hN : ratFloorPos ((n : ℚ) + 1 / 2) = n := by
    apply ratFloorPos_unique
    · linarith
    · linarith
  rw [hN, if_neg (show ¬n = 10 ^ 12 by omega)]

theorem strip10Aux_spec : ∀ f A, 1 ≤ A → A ≤ f →
    (strip10Aux f A).1 * 10 ^ (strip10Aux f A).2 = A ∧
      ¬10 ∣ (strip10Aux f A).1 ∧ 1 ≤ (strip10Aux f A).1 := by
  intro f
  induction f with
  | zero => intro A h1 h2; exact absurd h1 (by omega)
  | succ f ih =>
    intro A h1 h2
    rw [strip10Aux]
    split_ifs with hcond
    · obtain ⟨hmod, hne⟩ := hcond
      have hA10 : 10 ≤ A := by omega
      obtain ⟨ih1, ih2, ih3⟩ := ih (A / 10) (by omega) (by omega)
      refine ⟨?_, ih2, ih3⟩
      show (strip10Aux f (A / 10)).1 * 10 ^ ((strip10Aux f (A / 10)).2 + 1) = A
      rw [pow_succ, ← mul_assoc, ih1]
      omega
    · have hm : A % 10 ≠ 0 := fun hmm => hcond ⟨hmm, by omega⟩
      refine ⟨?_, ?_, ?_⟩
      · show A * 10 ^ 0 = A
        rw [pow_zero, mul_one]
      · show ¬10 ∣ A
        intro hdvd
        obtain ⟨c, rfl⟩ := hdvd
        exact hm (by omega)
      · exact h1

theorem strip10_spec (A : ℕ) (h : 1 ≤ A) :
    (strip10 A).1 * 10 ^ (strip10 A).2 = A ∧ ¬10 ∣ (strip10 A).1 ∧ 1 ≤ (strip10 A).1 :=
  strip10Aux_spec A A h le_rfl

/-! ## C9: rational bookkeeping helpers -/

theorem qabs_eq (q : ℚ) : qabs q = |q| := by
  rw [qabs]
  split_ifs with h
  · rw [qneg_eq, abs_of_neg h]
  · rw [abs_of_nonneg (not_lt.1 h)]

theorem rat_abs_den (y : ℚ) : |y|.den = y.den := by
  rcases abs_choice y with h | h
  · rw [h]
  · rw [h, Rat.neg_den]

theorem rat_eq_num_of_den_one {y : ℚ} (h : y.den = 1) : ((y.num : ℤ) : ℚ) = y := by
  conv_rhs => rw [← Rat.num_div_den y]
  rw [h]
  norm_num

theorem sign_wrap (P : Prop) [inst : Decidable P] (B : Str) :
    (if P then '-' :: B else B) = (if decide P then ['-'] else []) ++ B := by
  by_cases h : P
  · rw [if_pos h, if_pos (decide_eq_true h)]
    rfl
  · rw [if_neg h, if_neg (by simpa using h)]
    rfl

theorem frac_val (a b d s : ℕ) (h : a * 10 ^ d + b = s) :
    ((a : ℕ) : ℚ) + ((b : ℕ) : ℚ) / (10 : ℚ) ^ (d : ℕ)
      = ((s : ℕ) : ℚ) * (10 : ℚ) ^ (-(d : ℤ)) := by
  have hp : ((10 : ℚ) ^ (d : ℕ)) ≠ 0 := by positivity
  calc ((a : ℕ) : ℚ) + ((b : ℕ) : ℚ) / (10 : ℚ) ^ (d : ℕ)
      = (((a : ℕ) : ℚ) * (10 : ℚ) ^ (d : ℕ) + ((b : ℕ) : ℚ)) / (10 : ℚ) ^ (d : ℕ) := by
        field_simp
    _ = ((s : ℕ) : ℚ) / (10 : ℚ) ^ (d : ℕ) := by
        rw [show ((a : ℕ) : ℚ) * (10 : ℚ) ^ (d : ℕ) + ((b : ℕ) : ℚ) = ((s : ℕ) : ℚ) from by
          exact_mod_cast h]
    _ = ((s : ℕ) : ℚ) * (10 : ℚ) ^ (-(d : ℤ)) := by
        rw [zpow_neg, zpow_natCast, div_eq_mul_inv]

theorem val_merge (s : ℕ) (α β : ℤ) :
    ((s : ℕ) : ℚ) * (10 : ℚ) ^ α * (10 : ℚ) ^ β = ((s : ℕ) : ℚ) * (10 : ℚ) ^ (α + β) := by
  rw [mul_assoc, ← zpow_add₀ (by norm_num : (10 : ℚ) ≠ 0)]

theorem rstrip_decomp (l : Str) : ∃ m, l = rstrip l ++ List.replicate m '0' := by
  refine ⟨(l.reverse.takeWhile (fun c => c = '0')).length, ?_⟩
  have hsplit := List.takeWhile_append_dropWhile (fun c => decide (c = '0')) l.reverse
  have hrep : l.reverse.takeWhile (fun c => c = '0')
      = List.replicate (l.reverse.takeWhile (fun c => c = '0')).length '0' := by
    apply List.eq_replicate.2
    refine ⟨rfl, ?_⟩
    intro b hb
    have h2 := List.mem_takeWhile_imp hb
    simpa using h2
  conv_lhs => rw [← List.reverse_reverse l, ← hsplit]
  rw [List.reverse_append, hrep, List.reverse_replicate, List.length_replicate]
  rfl

theorem rstrip_subset (l : Str) : rstrip l ⊆ l := by
  intro c hc
  rw [rstrip, List.mem_reverse] at hc
  exact List.mem_reverse.1 ((List.dropWhile_sublist _).subset hc)

theorem getLast_append_of_ne_nil {a b : Str} (hb : b ≠ []) :
    (a ++ b).getLast? = b.getLast? := by
  rw [List.getLast?_append]
  obtain ⟨x, hx⟩ := Option.isSome_iff_exists.1 (List.getLast?_isSome.2 hb)
  rw [hx]
  rfl

theorem getLast_drop {l : Str} {m : ℕ} (h : l.drop m ≠ []) :
    (l.drop m).getLast? = l.getLast? := by
  conv_rhs => rw [← List.take_append_drop m l]
  exact (getLast_append_of_ne_nil h).symm

theorem trimTrailing_expChars (a : Str) (m : ℤ) (hm : m ≠ 0) :
    trimTrailing (a ++ 'e' :: expChars m) = a ++ 'e' :: expChars m := by
  rw [expChars]
  split_ifs with hneg
  · rw [show a ++ 'e' :: '-' :: natStr (-m).toNat
        = (a ++ ['e']) ++ '-' :: natStr (-m).toNat by simp]
    rw [trimTrailing_exp _ _ _ (Or.inr rfl) (natStr_digits _)
      (by rw [digitsVal_natStr]; omega)]
  · rw [show a ++ 'e' :: '+' :: natStr m.toNat
        = (a ++ ['e']) ++ '+' :: natStr m.toNat by simp]
    rw [trimTrailing_exp _ _ _ (Or.inl rfl) (natStr_digits _)
      (by rw [digitsVal_natStr]; omega)]

/-- Round-trip of the `Number::toString` layout: the rendering of
`± s * 10 ^ (n - k)` (where `k` is the digit count of `s` and `10 ∤ s`) is
left unchanged by `trimTrailing` and parses back to the exact value. -/
theorem jsLayout_roundtrip (v : ℚ) (neg : Bool) (s : ℕ) (n : ℤ)
    (hs1 : 1 ≤ s) (hs10 : ¬10 ∣ s)
    (hv : v = (if neg then (-1 : ℚ) else 1)
      * ((s : ℚ) * (10 : ℚ) ^ (n - ((natStr s).length : ℤ)))) :
    parseQ (trimTrailing
        ((if neg then ['-'] else []) ++ jsLayout (natStr s) (natStr s).length n))
      = some v := by
  set ds := natStr s with hdsdef
  set k := ds.length with hkdef
  have hdv : digitsVal ds = s := digitsVal_natStr s
  have hdig : ∀ c ∈ ds, isDigitChar c = true := natStr_digits s
  have hdne : ds ≠ [] := natStr_ne_nil (by omega)
  have hk1 : 1 ≤ k := by
    rw [hkdef]
    exact List.length_pos.2 hdne
  have hs10m : s % 10 ≠ 0 := by
    intro hml
    exact hs10 ⟨s / 10, by omega⟩
  have hlast : ds.getLast? = some (digitChar (s % 10)) := natStr_last s (by omega)
  have hlz : digitChar (s % 10) ≠ '0' := by
    have hsp := digitChar_spec (s % 10) (by omega)
    have h19 := hsp.2.2.1 hs10m
    intro hcon
    rw [hcon] at h19
    exact absurd h19.1 (by decide)
  have hsgn : ∀ c ∈ (if neg then ['-'] else ([] : Str)), c = '-' := by
    cases neg <;> simp
  rw [jsLayout]
  by_cases h1 : (k : ℤ) ≤ n ∧ n ≤ 21
  case pos =>
    rw [if_pos h1]
    -- integer layout: ds followed by n - k zeros
    set m := (n - (k : ℤ)).toNat with hmdef
    have hmz : (m : ℤ) = n - (k : ℤ) := by omega
    have hdot : ('.' : Char) ∉ (if neg then ['-'] else ([] : Str))
        ++ (ds ++ List.replicate m '0') := by
      intro hmem
      rcases List.mem_append.1 hmem with hm1 | hm2
      · exact absurd (hsgn '.' hm1) (by decide)
      · rcases List.mem_append.1 hm2 with hm3 | hm4
        · exact absurd (hdig '.' hm3) (by decide)
        · exact absurd (List.eq_of_mem_replicate hm4) (by decide)
    rw [trimTrailing_of_nodot hdot]
    have hp := parseQ_build_val neg (ds ++ List.replicate m '0') [] []
      (by
        intro c hc
        rcases List.mem_append.1 hc with hc1 | hc2
        · exact hdig c hc1
        · rw [List.eq_of_mem_replicate hc2]
          decide)
      (by intro c hc; exact absurd hc (List.not_mem_nil c))
      (by
        intro hcon
        rw [List.append_eq_nil] at hcon
        exact hdne hcon.1)
      (Or.inl rfl)
    have hstr : (if neg then ['-'] else ([] : Str)) ++ (ds ++ List.replicate m '0')
        = (if neg then ['-'] else ([] : Str)) ++ (ds ++ List.replicate m '0')
          ++ (if ([] : Str) = [] then [] else '.' :: ([] : Str)) ++ ([] : Str) := by
      simp
    rw [hstr, hp, hv]
    congr 1
    have hdval : digitsVal (ds ++ List.replicate m '0') = s * 10 ^ m := by
      rw [digitsVal_append, digitsVal_replicate_zero, List.length_replicate, hdv, add_zero]
    rw [hdval, show digitsVal ([] : Str) = 0 from rfl,
      show parseExp ([] : Str) = 0 from rfl, zpow_zero, mul_one]
    have hval : ((s * 10 ^ m : ℕ) : ℚ) + ((0 : ℕ) : ℚ) / (10 : ℚ) ^ (List.length ([] : Str))
        = (s : ℚ) * (10 : ℚ) ^ (n - (k : ℤ)) := by
      rw [← hmz]
      push_cast
      rw [← zpow_natCast (10 : ℚ) m]
      norm_num
    rw [hval]
  case neg =>
  rw [if_neg h1]
  by_cases h2 : 0 < n ∧ n ≤ 21
  case pos =>
    rw [if_pos h2]
    -- dotted layout: take n digits, dot, rest
    set m := n.toNat with hmdef
    have hmz : (m : ℤ) = n := by omega
    have hnk : n < (k : ℤ) := by
      by_contra hcon
      exact h1 ⟨le_of_not_lt hcon, h2.2⟩
    have hmk : m < k := by omega
    have hm1 : 1 ≤ m := by omega
    have hfrne : ds.drop m ≠ [] := by
      intro hcon
      rw [List.drop_eq_nil_iff] at hcon
      omega
    have hRlast : ((if neg then ['-'] else ([] : Str))
        ++ (ds.take m ++ '.' :: ds.drop m)).getLast? = some (digitChar (s % 10)) := by
      rw [getLast_append_of_ne_nil (by simp), getLast_append_of_ne_nil (by simp),
        show ('.' :: ds.drop m) = ['.'] ++ ds.drop m from rfl,
        getLast_append_of_ne_nil hfrne, getLast_drop hfrne, hlast]
    rw [trimTrailing_of_last hRlast hlz]
    have hp := parseQ_build_val neg (ds.take m) (ds.drop m) []
      (fun c hc => hdig c (List.mem_of_mem_take hc))
      (fun c hc => hdig c (List.mem_of_mem_drop hc))
      (by
        intro hcon
        have hl := congrArg List.length hcon
        rw [List.length_take, List.length_nil] at hl
        omega)
      (Or.inl rfl)
    have hstr : (if neg then ['-'] else ([] : Str)) ++ (ds.take m ++ '.' :: ds.drop m)
        = (if neg then ['-'] else ([] : Str)) ++ ds.take m
          ++ (if ds.drop m = [] then [] else '.' :: ds.drop m) ++ ([] : Str) := by
      rw [if_neg hfrne]
      simp
    rw [hstr, hp, hv]
    congr 1
    have hsplit : digitsVal (ds.take m) * 10 ^ (ds.drop m).length
        + digitsVal (ds.drop m) = s := by
      rw [← digitsVal_append, List.take_append_drop, hdv]
    have hfv := frac_val (digitsVal (ds.take m)) (digitsVal (ds.drop m))
      (ds.drop m).length s hsplit
    rw [hfv, show parseExp ([] : Str) = 0 from rfl, zpow_zero, mul_one]
    have hexp : -(((ds.drop m).length : ℕ) : ℤ) = n - (k : ℤ) := by
      rw [List.length_drop]
      omega
    rw [hexp]
  case neg =>
  rw [if_neg h2]
  by_cases h3 : -6 < n ∧ n ≤ 0
  case pos =>
    rw [if_pos h3]
    -- leading-zero layout: 0.00…0ds
    set mm := (-n).toNat with hmmdef
    have hmmz : (mm : ℤ) = -n := by omega
    have hfrne : List.replicate mm '0' ++ ds ≠ [] := by
      intro hcon
      rw [List.append_eq_nil] at hcon
      exact hdne hcon.2
    have hfrdig : ∀ c ∈ List.replicate mm '0' ++ ds, isDigitChar c = true := by
      intro c hc
      rcases List.mem_append.1 hc with hc1 | hc2
      · rw [List.eq_of_mem_replicate hc1]
        decide
      · exact hdig c hc2
    have hRlast : ((if neg then ['-'] else ([] : Str))
        ++ ('0' :: '.' :: (List.replicate mm '0' ++ ds))).getLast?
        = some (digitChar (s % 10)) := by
      rw [getLast_append_of_ne_nil (by simp),
        show ('0' :: '.' :: (List.replicate mm '0' ++ ds))
          = ['0', '.'] ++ (List.replicate mm '0' ++ ds) from rfl,
        getLast_append_of_ne_nil hfrne, getLast_append_of_ne_nil hdne, hlast]
    rw [trimTrailing_of_last hRlast hlz]
    have hp := parseQ_build_val neg ['0'] (List.replicate mm '0' ++ ds) []
      (by
        intro c hc
        rw [List.mem_singleton] at hc
        rw [hc]
        decide)
      hfrdig (by simp) (Or.inl rfl)
    have hstr : (if neg then ['-'] else ([] : Str))
        ++ ('0' :: '.' :: (List.replicate mm '0' ++ ds))
        = (if neg then ['-'] else ([] : Str)) ++ ['0']
          ++ (if List.replicate mm '0' ++ ds = [] then []
              else '.' :: (List.replicate mm '0' ++ ds)) ++ ([] : Str) := by
      rw [if_neg hfrne]
      simp
    rw [hstr, hp, hv]
    congr 1
    have hsplit : digitsVal ['0'] * 10 ^ (List.replicate mm '0' ++ ds).length
        + digitsVal (List.replicate mm '0' ++ ds) = s := by
      rw [show digitsVal ['0'] = 0 from rfl, zero_mul, zero_add, digitsVal_append,
        digitsVal_replicate_zero, zero_mul, zero_add, hdv]
    have hfv := frac_val (digitsVal ['0']) (digitsVal (List.replicate mm '0' ++ ds))
      (List.replicate mm '0' ++ ds).length s hsplit
    rw [hfv, show parseExp ([] : Str) = 0 from rfl, zpow_zero, mul_one]
    have hexp : -(((List.replicate mm '0' ++ ds).length : ℕ) : ℤ) = n - (k : ℤ) := by
      rw [List.length_append, List.length_replicate]
      omega
    rw [hexp]
  case neg =>
  rw [if_neg h3]
  -- exponential layout
  have hn1 : n - 1 ≠ 0 := by omega
  by_cases hks : k = 1
  · rw [if_pos hks]
    have htt : trimTrailing ((if neg then ['-'] else ([] : Str))
        ++ (ds ++ 'e' :: expChars (n - 1)))
        = (if neg then ['-'] else ([] : Str)) ++ (ds ++ 'e' :: expChars (n - 1)) := by
      rw [show (if neg then ['-'] else ([] : Str)) ++ (ds ++ 'e' :: expChars (n - 1))
          = ((if neg then ['-'] else ([] : Str)) ++ ds) ++ 'e' :: expChars (n - 1) by simp]
      rw [trimTrailing_expChars _ _ hn1]
    rw [htt]
    have hp := parseQ_build_val neg ds [] ('e' :: expChars (n - 1)) hdig
      (by intro c hc; exact absurd hc (List.not_mem_nil c)) hdne (Or.inr ⟨_, rfl⟩)
    have hstr : (if neg then ['-'] else ([] : Str)) ++ (ds ++ 'e' :: expChars (n - 1))
        = (if neg then ['-'] else ([] : Str)) ++ ds
          ++ (if ([] : Str) = [] then [] else '.' :: ([] : Str))
          ++ ('e' :: expChars (n - 1)) := by
      simp
    rw [hstr, hp, hv]
    congr 1
    rw [parseExp_exp, hdv, hks, show digitsVal ([] : Str) = 0 from rfl]
    push_cast
    ring
  · rw [if_neg hks]
    have hk2 : 2 ≤ k := by omega
    have hfrne : ds.drop 1 ≠ [] := by
      intro hcon
      rw [List.drop_eq_nil_iff] at hcon
      omega
    have hipne : ds.take 1 ≠ [] := by
      intro hcon
      have hl := congrArg List.length hcon
      rw [List.length_take, List.length_nil] at hl
      omega
    have htt : trimTrailing ((if neg then ['-'] else ([] : Str))
        ++ ((ds.take 1 ++ '.' :: ds.drop 1) ++ 'e' :: expChars (n - 1)))
        = (if neg then ['-'] else ([] : Str))
          ++ ((ds.take 1 ++ '.' :: ds.drop 1) ++ 'e' :: expChars (n - 1)) := by
      rw [show (if neg then ['-'] else ([] : Str))
            ++ ((ds.take 1 ++ '.' :: ds.drop 1) ++ 'e' :: expChars (n - 1))
          = ((if neg then ['-'] else ([] : Str)) ++ (ds.take 1 ++ '.' :: ds.drop 1))
            ++ 'e' :: expChars (n - 1) by simp]
      rw [trimTrailing_expChars _ _ hn1]
    rw [htt]
    have hp := parseQ_build_val neg (ds.take 1) (ds.drop 1) ('e' :: expChars (n - 1))
      (fun c hc => hdig c (List.mem_of_mem_take hc))
      (fun c hc => hdig c (List.mem_of_mem_drop hc))
      hipne (Or.inr ⟨_, rfl⟩)
    have hstr : (if neg then ['-'] else ([] : Str))
        ++ ((ds.take 1 ++ '.' :: ds.drop 1) ++ 'e' :: expChars (n - 1))
        = (if neg then ['-'] else ([] : Str)) ++ ds.take 1
          ++ (if ds.drop 1 = [] then [] else '.' :: ds.drop 1)
          ++ ('e' :: expChars (n - 1)) := by
      rw [if_neg hfrne]
      simp
    rw [hstr, hp, hv]
    congr 1
    have hsplit : digitsVal (ds.take 1) * 10 ^ (ds.drop 1).length
        + digitsVal (ds.drop 1) = s := by
      rw [← digitsVal_append, List.take_append_drop, hdv]
    have hfv := frac_val (digitsVal (ds.take 1)) (digitsVal (ds.drop 1))
      (ds.drop 1).length s hsplit
    rw [hfv, parseExp_exp, mul_assoc, val_merge]
    have hexp : -(((ds.drop 1).length : ℕ) : ℤ) + (n - 1) = n - (k : ℤ) := by
      rw [List.length_drop]
      omega
    rw [hexp]

/-- Working form of the `toStringJS` round trip, with the power-of-ten scale
`j` and the scaled integer `A` abstracted. -/
theorem toStringJS_spec_aux (q : ℚ) (j A : ℕ) (hA1 : 1 ≤ A)
    (hAval : ((A : ℕ) : ℚ) = |q| * (10 : ℚ) ^ ((j : ℕ) : ℤ)) :
    parseQ (trimTrailing
      ((if decide (q < 0) then ['-'] else []) ++
        jsLayout (natStr (strip10 A).1) (natStr (strip10 A).1).length
          (((natStr (strip10 A).1).length : ℤ) + ((strip10 A).2 : ℤ) - (j : ℤ))))
      = some q := by
  have hnz10 : (10 : ℚ) ≠ 0 := by norm_num
  obtain ⟨hsz, hndvd, hs1⟩ := strip10_spec A hA1
  have habs2 : |q| = (((strip10 A).1 : ℕ) : ℚ)
      * (10 : ℚ) ^ (((strip10 A).2 : ℤ) - (j : ℤ)) := by
    have h1 : ((A : ℕ) : ℚ) = (((strip10 A).1 : ℕ) : ℚ)
        * (10 : ℚ) ^ ((strip10 A).2 : ℕ) := by
      exact_mod_cast congrArg (Nat.cast : ℕ → ℚ) hsz.symm
    have h2 : |q| = ((A : ℕ) : ℚ) * (10 : ℚ) ^ (-((j : ℕ) : ℤ)) := by
      rw [hAval, mul_assoc, ← zpow_add₀ hnz10, add_neg_cancel, zpow_zero, mul_one]
    rw [h2, h1, mul_assoc, ← zpow_natCast (10 : ℚ) (strip10 A).2, ← zpow_add₀ hnz10]
    congr 1
  have hvq : q = (if decide (q < 0) then (-1 : ℚ) else 1)
      * ((((strip10 A).1 : ℕ) : ℚ)
        * (10 : ℚ) ^ (((((natStr (strip10 A).1).length : ℤ) + ((strip10 A).2 : ℤ) - (j : ℤ)))
            - ((natStr (strip10 A).1).length : ℤ))) := by
    have hexp : ((((natStr (strip10 A).1).length : ℤ) + ((strip10 A).2 : ℤ) - (j : ℤ)))
        - ((natStr (strip10 A).1).length : ℤ) = ((strip10 A).2 : ℤ) - (j : ℤ) := by
      ring
    rw [hexp, ← habs2]
    by_cases hneg : q < 0
    · rw [if_pos (decide_eq_true hneg), abs_of_neg hneg]
      ring
    · rw [if_neg (by simpa using hneg), abs_of_nonneg (not_lt.1 hneg), one_mul]
  exact jsLayout_roundtrip q (decide (q < 0)) (strip10 A).1 _ hs1 hndvd hvq

/-- On a nonzero decimal rational, the `toString` fallback prints a string
that trims to itself and parses back to exactly the input value. -/
theorem toStringJS_spec (q : ℚ) (hq : q ≠ 0) (hD : DecimalRat q) :
    parseQ (trimTrailing (toStringJS q)) = some q := by
  have habs_pos : 0 < |q| := abs_pos.2 hq
  set j := countP 2 q.den + countP 5 q.den with hjdef
  have hpj : (0 : ℚ) < (10 : ℚ) ^ ((j : ℕ) : ℤ) := zpow_pos (by norm_num) _
  have hprod : qmul (qabs q) (qpow10 ((j : ℕ) : ℤ))
      = |q| * (10 : ℚ) ^ ((j : ℕ) : ℤ) := by
    rw [qmul_eq, qpow10_eq, qabs_eq]
  have habsmul : qmul (qabs q) (qpow10 ((j : ℕ) : ℤ))
      = |qmul q (qpow10 ((j : ℕ) : ℤ))| := by
    rw [hprod, qmul_eq, qpow10_eq, abs_mul, abs_of_pos hpj]
  have hden1 : (qmul (qabs q) (qpow10 ((j : ℕ) : ℤ))).den = 1 := by
    rw [habsmul, rat_abs_den]
    exact hD
  have hYpos : (0 : ℚ) < qmul (qabs q) (qpow10 ((j : ℕ) : ℤ)) := by
    rw [hprod]
    exact mul_pos habs_pos hpj
  have hnum_pos : 0 < (qmul (qabs q) (qpow10 ((j : ℕ) : ℤ))).num := Rat.num_pos.2 hYpos
  set A := (qmul (qabs q) (qpow10 ((j : ℕ) : ℤ))).num.toNat with hAdef
  have hA1 : 1 ≤ A := by omega
  have hAcast : ((A : ℕ) : ℤ) = (qmul (qabs q) (qpow10 ((j : ℕ) : ℤ))).num := by
    rw [hAdef]
    exact Int.toNat_of_nonneg hnum_pos.le
  have hAval : ((A : ℕ) : ℚ) = |q| * (10 : ℚ) ^ ((j : ℕ) : ℤ) := by
    rw [show ((A : ℕ) : ℚ) = (((A : ℕ) : ℤ) : ℚ) from by push_cast; rfl, hAcast,
      rat_eq_num_of_den_one hden1, hprod]
  simp only [toStringJS]
  rw [if_neg hq, sign_wrap]
  exact toStringJS_spec_aux q j A hA1 hAval

theorem pow_shift (S nn t : ℕ) (α β : ℤ) (h : S * 10 ^ t = nn) (he : β = α - (t : ℤ)) :
    ((S : ℕ) : ℚ) * (10 : ℚ) ^ α = ((nn : ℕ) : ℚ) * (10 : ℚ) ^ β := by
  have hc : ((S : ℕ) : ℚ) * (10 : ℚ) ^ (t : ℕ) = ((nn : ℕ) : ℚ) := by
    exact_mod_cast congrArg (Nat.cast : ℕ → ℚ) h
  rw [he, ← hc, ← zpow_natCast (10 : ℚ) t, mul_assoc,
    ← zpow_add₀ (by norm_num : (10 : ℚ) ≠ 0)]
  congr 1
  ring

theorem sign_wrap_bool (b : Bool) (B : Str) :
    (if b then '-' :: B else B) = (if b then ['-'] else []) ++ B := by
  cases b
  · rfl
  · rfl

theorem buildPrec_exp_mem (neg : Bool) (n : ℕ) (e : ℤ) (h : e < -6 ∨ 12 ≤ e) :
    'e' ∈ buildPrec neg n e := by
  simp only [buildPrec]
  rw [if_pos h]
  cases neg <;> simp

/-- The significand-and-exponent pair printed by a non-exponential
`toPrecision(12)` layout reconstructs its own `toPrecision(12)` string. -/
theorem toPrecision12_of_value (neg : Bool) (nn : ℕ) (ee : ℤ)
    (hb1 : 10 ^ 11 ≤ nn) (hb2 : nn < 10 ^ 12) :
    (if neg then (-1 : ℚ) else 1) * ((nn : ℚ) * (10 : ℚ) ^ (ee - 11)) ≠ 0 ∧
      toPrecision12 ((if neg then (-1 : ℚ) else 1) * ((nn : ℚ) * (10 : ℚ) ^ (ee - 11)))
        = buildPrec neg nn ee := by
  have hn' : 0 < nn := lt_of_lt_of_le (by norm_num) hb1
  have hpos : (0 : ℚ) < (nn : ℚ) * (10 : ℚ) ^ (ee - 11) := by
    apply mul_pos _ (zpow_pos (by norm_num) _)
    exact_mod_cast hn'
  set v := (if neg then (-1 : ℚ) else 1) * ((nn : ℚ) * (10 : ℚ) ^ (ee - 11)) with hvdef
  have hv_ne : v ≠ 0 := by
    rw [hvdef]
    cases neg
    · simpa using hpos.ne'
    · simpa using hpos.ne'
  have habs : qabs v = (nn : ℚ) * (10 : ℚ) ^ (ee - 11) := by
    rw [qabs_eq, hvdef]
    cases neg <;> simp [abs_of_pos hpos]
  have hsR : sigRound (qabs v) = (nn, ee) := by
    rw [habs]
    exact sigRound_exact nn ee hb1 hb2
  have hsign : decide (v < 0) = neg := by
    cases neg
    · have hnl : ¬v < 0 := by
        rw [hvdef]
        show ¬(1 : ℚ) * ((nn : ℚ) * (10 : ℚ) ^ (ee - 11)) < 0
        rw [one_mul]
        exact not_lt.2 hpos.le
      simpa using hnl
    · have hlt : v < 0 := by
        rw [hvdef]
        show (-1 : ℚ) * ((nn : ℚ) * (10 : ℚ) ^ (ee - 11)) < 0
        rw [neg_one_mul]
        exact neg_lt_zero.2 hpos
      simpa using hlt
  refine ⟨hv_ne, ?_⟩
  simp only [toPrecision12]
  rw [if_neg hv_ne, hsR]
  show buildPrec (decide (v < 0)) nn ee = buildPrec neg nn ee
  rw [hsign]

/-- A non-exponential `toPrecision(12)` layout, after trailing-zero
trimming, parses back to `± nn * 10 ^ (ee - 11)` exactly. -/
theorem buildPrec_parse (neg : Bool) (nn : ℕ) (ee : ℤ)
    (hb1 : 10 ^ 11 ≤ nn) (hb2 : nn < 10 ^ 12) (hr1 : -6 ≤ ee) (hr2 : ee ≤ 11) :
    parseQ (trimTrailing (buildPrec neg nn ee))
      = some ((if neg then (-1 : ℚ) else 1) * ((nn : ℚ) * (10 : ℚ) ^ (ee - 11))) := by
  have hnn1 : 1 ≤ nn := le_trans (by norm_num) hb1
  set ds := natStr nn with hdsdef
  have hk12 : ds.length = 12 := natStr_length nn 11 hb1 hb2
  have hdv : digitsVal ds = nn := digitsVal_natStr nn
  have hdig : ∀ c ∈ ds, isDigitChar c = true := natStr_digits nn
  have hdne : ds ≠ [] := natStr_ne_nil (by omega)
  have hsgn : ∀ c ∈ (if neg then ['-'] else ([] : Str)), c = '-' := by
    cases neg <;> simp
  simp only [buildPrec]
  rw [sign_wrap_bool, if_neg (show ¬(ee < -6 ∨ 12 ≤ ee) by omega)]
  by_cases hc1 : ee = 11
  case pos =>
    rw [if_pos hc1]
    have hdot : ('.' : Char) ∉ (if neg then ['-'] else ([] : Str)) ++ ds := by
      intro hmem
      rcases List.mem_append.1 hmem with hm1 | hm2
      · exact absurd (hsgn '.' hm1) (by decide)
      · exact absurd (hdig '.' hm2) (by decide)
    rw [trimTrailing_of_nodot hdot]
    have hp := parseQ_build_val neg ds [] [] hdig
      (by intro c hc; exact absurd hc (List.not_mem_nil c)) hdne (Or.inl rfl)
    have hstr : (if neg then ['-'] else ([] : Str)) ++ ds
        = (if neg then ['-'] else ([] : Str)) ++ ds
          ++ (if ([] : Str) = [] then [] else '.' :: ([] : Str)) ++ ([] : Str) := by
      simp
    rw [hstr, hp]
    congr 1
    rw [hdv, show digitsVal ([] : Str) = 0 from rfl, show parseExp ([] : Str) = 0 from rfl,
      zpow_zero, mul_one, hc1]
    norm_num
  case neg =>
  rw [if_neg hc1]
  by_cases hc2 : 0 ≤ ee
  case pos =>
    rw [if_pos hc2]
    set m := ee.toNat + 1 with hmdef
    have hmz : (m : ℤ) = ee + 1 := by omega
    have hm1 : 1 ≤ m := by omega
    have hmk : m < 12 := by omega
    have hfrne : ds.drop m ≠ [] := by
      intro hcon
      rw [List.drop_eq_nil_iff, hk12] at hcon
      omega
    have hfrdig : ∀ c ∈ ds.drop m, isDigitChar c = true :=
      fun c hc => hdig c (List.mem_of_mem_drop hc)
    have hipne : ds.take m ≠ [] := by
      intro hcon
      have hl := congrArg List.length hcon
      rw [List.length_take, List.length_nil, hk12] at hl
      omega
    rw [show (if neg then ['-'] else ([] : Str)) ++ (ds.take m ++ '.' :: ds.drop m)
        = (if neg then ['-'] else ([] : Str)) ++ ds.take m ++ '.' :: ds.drop m by simp]
    rw [trim_decimal _ _ _ hfrdig hfrne]
    obtain ⟨mz, hmzdef⟩ := rstrip_decomp (ds.drop m)
    have hsum : digitsVal (ds.take m) * 10 ^ (ds.drop m).length
        + digitsVal (ds.drop m) = nn := by
      rw [← digitsVal_append, List.take_append_drop, hdv]
    have hlen : (ds.drop m).length = 12 - m := by
      rw [List.length_drop, hk12]
    by_cases hrs : rstrip (ds.drop m) = []
    case pos =>
      rw [if_pos hrs, List.append_nil]
      have hdz : digitsVal (ds.drop m) = 0 := by
        conv_lhs => rw [hmzdef]
        rw [hrs, List.nil_append, digitsVal_replicate_zero]
      have hp := parseQ_build_val neg (ds.take m) [] []
        (fun c hc => hdig c (List.mem_of_mem_take hc))
        (by intro c hc; exact absurd hc (List.not_mem_nil c))
        hipne (Or.inl rfl)
      have hstr : (if neg then ['-'] else ([] : Str)) ++ ds.take m
          = (if neg then ['-'] else ([] : Str)) ++ ds.take m
            ++ (if ([] : Str) = [] then [] else '.' :: ([] : Str)) ++ ([] : Str) := by
        simp
      rw [hstr, hp]
      congr 1
      have hdt : digitsVal (ds.take m) * 10 ^ ((ds.drop m).length) = nn := by
        omega
      have hfin := pow_shift (digitsVal (ds.take m)) nn ((ds.drop m).length) 0 (ee - 11)
        hdt (by omega)
      have hclean : ((digitsVal (ds.take m) : ℕ) : ℚ)
          + ((digitsVal ([] : Str) : ℕ) : ℚ) / (10 : ℚ) ^ (List.length ([] : Str))
          = ((nn : ℕ) : ℚ) * (10 : ℚ) ^ ((ee : ℤ) - 11) := by
        rw [← hfin, show digitsVal ([] : Str) = 0 from rfl]
        norm_num
      rw [hclean, show parseExp ([] : Str) = 0 from rfl, zpow_zero, mul_one]
    case neg =>
      rw [if_neg hrs]
      have hrdig : ∀ c ∈ rstrip (ds.drop m), isDigitChar c = true :=
        fun c hc => hfrdig c (rstrip_subset _ hc)
      have hp := parseQ_build_val neg (ds.take m) (rstrip (ds.drop m)) []
        (fun c hc => hdig c (List.mem_of_mem_take hc)) hrdig hipne (Or.inl rfl)
      have hstr : (if neg then ['-'] else ([] : Str)) ++ ds.take m
            ++ '.' :: rstrip (ds.drop m)
          = (if neg then ['-'] else ([] : Str)) ++ ds.take m
            ++ (if rstrip (ds.drop m) = [] then [] else '.' :: rstrip (ds.drop m))
            ++ ([] : Str) := by
        rw [if_neg hrs]
        simp
      rw [hstr, hp]
      congr 1
      have hdfr : digitsVal (ds.drop m) = digitsVal (rstrip (ds.drop m)) * 10 ^ mz := by
        conv_lhs => rw [hmzdef]
        rw [digitsVal_append, digitsVal_replicate_zero, List.length_replicate, add_zero]
      have hflen : (ds.drop m).length = (rstrip (ds.drop m)).length + mz := by
        conv_lhs => rw [hmzdef]
        rw [List.length_append, List.length_replicate]
      have hfv := frac_val (digitsVal (ds.take m)) (digitsVal (rstrip (ds.drop m)))
        ((rstrip (ds.drop m)).length)
        (digitsVal (ds.take m) * 10 ^ (rstrip (ds.drop m)).length
          + digitsVal (rstrip (ds.drop m))) rfl
      have hSnn : (digitsVal (ds.take m) * 10 ^ (rstrip (ds.drop m)).length
          + digitsVal (rstrip (ds.drop m))) * 10 ^ mz = nn := by
        rw [add_mul, mul_assoc, ← pow_add, ← hflen, ← hdfr]
        exact hsum
      rw [hfv, show parseExp ([] : Str) = 0 from rfl, zpow_zero, mul_one]
      have hfin := pow_shift _ nn mz (-(((rstrip (ds.drop m)).length : ℕ) : ℤ)) (ee - 11)
        hSnn (by omega)
      rw [hfin]
  case neg =>
  rw [if_neg hc2]
  set mm := (-ee - 1).toNat with hmmdef
  have hmmz : (mm : ℤ) = -ee - 1 := by omega
  have hfrne : List.replicate mm '0' ++ ds ≠ [] := by
    intro hcon
    rw [List.append_eq_nil] at hcon
    exact hdne hcon.2
  have hfrdig : ∀ c ∈ List.replicate mm '0' ++ ds, isDigitChar c = true := by
    intro c hc
    rcases List.mem_append.1 hc with hc1 | hc2
    · rw [List.eq_of_mem_replicate hc1]
      decide
    · exact hdig c hc2
  rw [show (if neg then ['-'] else ([] : Str)) ++ ('0' :: '.' :: (List.replicate mm '0' ++ ds))
      = (if neg then ['-'] else ([] : Str)) ++ ['0'] ++ '.' :: (List.replicate mm '0' ++ ds)
      by simp]
  rw [trim_decimal _ _ _ hfrdig hfrne]
  obtain ⟨mz, hmzdef⟩ := rstrip_decomp (List.replicate mm '0' ++ ds)
  have hdfull : digitsVal (List.replicate mm '0' ++ ds) = nn := by
    rw [digitsVal_append, digitsVal_replicate_zero, zero_mul, zero_add, hdv]
  have hrsne : rstrip (List.replicate mm '0' ++ ds) ≠ [] := by
    intro hcon
    rw [hcon, List.nil_append] at hmzdef
    rw [hmzdef, digitsVal_replicate_zero] at hdfull
    omega
  rw [if_neg hrsne]
  have hrdig : ∀ c ∈ rstrip (List.replicate mm '0' ++ ds), isDigitChar c = true :=
    fun c hc => hfrdig c (rstrip_subset _ hc)
  have hp := parseQ_build_val neg ['0'] (rstrip (List.replicate mm '0' ++ ds)) []
    (by intro c hc; rw [List.mem_singleton] at hc; rw [hc]; decide)
    hrdig (by simp) (Or.inl rfl)
  have hstr : (if neg then ['-'] else ([] : Str)) ++ ['0']
        ++ '.' :: rstrip (List.replicate mm '0' ++ ds)
      = (if neg then ['-'] else ([] : Str)) ++ ['0']
        ++ (if rstrip (List.replicate mm '0' ++ ds) = [] then []
            else '.' :: rstrip (List.replicate mm '0' ++ ds)) ++ ([] : Str) := by
    rw [if_neg hrsne]
    simp
  rw [hstr, hp]
  congr 1
  have hdfr : digitsVal (List.replicate mm '0' ++ ds)
      = digitsVal (rstrip (List.replicate mm '0' ++ ds)) * 10 ^ mz := by
    conv_lhs => rw [hmzdef]
    rw [digitsVal_append, digitsVal_replicate_zero, List.length_replicate, add_zero]
  have hflen : (List.replicate mm '0' ++ ds).length
      = (rstrip (List.replicate mm '0' ++ ds)).length + mz := by
    conv_lhs => rw [hmzdef]
    rw [List.length_append, List.length_replicate]
  have hlen2 : (List.replicate mm '0' ++ ds).length = mm + 12 := by
    rw [List.length_append, List.length_replicate, hk12]
  have hfv := frac_val (digitsVal ['0'])
    (digitsVal (rstrip (List.replicate mm '0' ++ ds)))
    ((rstrip (List.replicate mm '0' ++ ds)).length)
    (digitsVal ['0'] * 10 ^ (rstrip (List.replicate mm '0' ++ ds)).length
      + digitsVal (rstrip (List.replicate mm '0' ++ ds))) rfl
  have hSnn : (digitsVal ['0'] * 10 ^ (rstrip (List.replicate mm '0' ++ ds)).length
      + digitsVal (rstrip (List.replicate mm '0' ++ ds))) * 10 ^ mz = nn := by
    rw [show digitsVal ['0'] = 0 from rfl, zero_mul, zero_add, ← hdfr, hdfull]
  rw [hfv, show parseExp ([] : Str) = 0 from rfl, zpow_zero, mul_one]
  have hfin := pow_shift _ nn mz
    (-(((rstrip (List.replicate mm '0' ++ ds)).length : ℕ) : ℤ)) (ee - 11) hSnn (by omega)
  rw [hfin]

/-- On the non-exponential `toPrecision(12)` path, the displayed string
parses to the rounded value, which is nonzero and reproduces the same
`toPrecision(12)` string. -/
theorem toPrecision_roundtrip (q : ℚ) (hq : q ≠ 0) (he : 'e' ∉ toPrecision12 q) :
    parseQ (trimTrailing (toPrecision12 q))
      = some ((if decide (q < 0) then (-1 : ℚ) else 1)
          * (((sigRound (qabs q)).1 : ℚ) * (10 : ℚ) ^ ((sigRound (qabs q)).2 - 11))) ∧
    (if decide (q < 0) then (-1 : ℚ) else 1)
        * (((sigRound (qabs q)).1 : ℚ) * (10 : ℚ) ^ ((sigRound (qabs q)).2 - 11)) ≠ 0 ∧
    toPrecision12 ((if decide (q < 0) then (-1 : ℚ) else 1)
        * (((sigRound (qabs q)).1 : ℚ) * (10 : ℚ) ^ ((sigRound (qabs q)).2 - 11)))
      = toPrecision12 q := by
  have habs : (0 : ℚ) < qabs q := by
    rw [qabs_eq]
    exact abs_pos.2 hq
  obtain ⟨hb1, hb2⟩ := sigRound_bounds (qabs q) habs
  have hTP : toPrecision12 q
      = buildPrec (decide (q < 0)) (sigRound (qabs q)).1 (sigRound (qabs q)).2 := by
    simp only [toPrecision12]
    rw [if_neg hq]
  rw [hTP] at he
  have hrange1 : -6 ≤ (sigRound (qabs q)).2 := by
    by_contra hcon
    exact he (buildPrec_exp_mem _ _ _ (Or.inl (by omega)))
  have hrange2 : (sigRound (qabs q)).2 ≤ 11 := by
    by_contra hcon
    exact he (buildPrec_exp_mem _ _ _ (Or.inr (by omega)))
  obtain ⟨hne, hTPv⟩ := toPrecision12_of_value (decide (q < 0)) (sigRound (qabs q)).1
    (sigRound (qabs q)).2 hb1 hb2
  refine ⟨?_, hne, by rw [hTPv, hTP]⟩
  rw [hTP]
  exact buildPrec_parse (decide (q < 0)) _ _ hb1 hb2 hrange1 hrange2

/-- C9: the number-formatting function is idempotent as a round trip —
for every finite number (modelled by the decimal rationals, which contain
every IEEE-754 double), parsing `formatNumber q` back with `parseFloat` and
formatting the parsed value again yields the same string. -/
theorem c9_format_roundtrip (q : ℚ) (h : DecimalRat q) :
    ∃ v, parseQ (formatNumber q) = some v ∧ formatNumber v = formatNumber q := by
  by_cases hq : q = 0
  case pos =>
    subst hq
    exact ⟨0, by decide, by decide⟩
  case neg =>
  by_cases hE : 'e' ∈ toPrecision12 q
  case pos =>
    have hFq : formatNumber q = trimTrailing (toStringJS q) := by
      simp only [formatNumber]
      rw [if_pos hE]
    refine ⟨q, ?_, rfl⟩
    rw [hFq]
    exact toStringJS_spec q hq h
  case neg =>
    have hFq : formatNumber q = trimTrailing (toPrecision12 q) := by
      simp only [formatNumber]
      rw [if_neg hE]
    obtain ⟨hparse, hvne, hTPv⟩ := toPrecision_roundtrip q hq hE
    refine ⟨_, by rw [hFq]; exact hparse, ?_⟩
    have hFv : formatNumber ((if decide (q < 0) then (-1 : ℚ) else 1)
          * (((sigRound (qabs q)).1 : ℚ) * (10 : ℚ) ^ ((sigRound (qabs q)).2 - 11)))
        = trimTrailing (toPrecision12 ((if decide (q < 0) then (-1 : ℚ) else 1)
          * (((sigRound (qabs q)).1 : ℚ) * (10 : ℚ) ^ ((sigRound (qabs q)).2 - 11)))) := by
      simp only [formatNumber]
      rw [if_neg (by rw [hTPv]; exact hE)]
    rw [hFv, hTPv, hFq]

theorem c9_witness : DecimalRat (Rat.divInt 1 8) ∧
    ∃ v, parseQ (formatNumber (Rat.divInt 1 8)) = some v ∧
      formatNumber v = formatNumber (Rat.divInt 1 8) :=
  ⟨by decide, c9_format_roundtrip (Rat.divInt 1 8) (by decide)⟩
